import Mathlib

/-!
Verification of the directive-parsing and value-conversion engine of
`dynaconf/utils/parse_conf.py` (the tokenizer/dispatcher `_parse_conf_data`,
the recursive walker `parse_conf_data`, the converter registry, the `Lazy`
deferred values, the `Merge` meta-value normalization, and the encoder
`unparse_conf_data`).

Modelling conventions:
- Python strings are `List Char` (`Str`).  Python's `str.lower` is modelled on
  the ASCII range (all registry tokens and truthy tokens are ASCII).
- Python `float` values are modelled by their canonical shortest `repr`
  strings (Python guarantees `float(repr(x)) == x` for finite floats), plus
  explicit `inf`, `-inf` and `nan` constructors; Python's `nan != nan` is
  reflected in the modelled equality `pyEq`.
- Python `int` is modelled by `Int` (Python ints are unbounded).
- Fallible operations return `Except PyErr`; recursion through the dynamic
  converter dispatch is bounded by an explicit fuel parameter (`fuelExhausted`
  is a modelling artifact that no theorem's path reaches).
-/

set_option maxHeartbeats 1000000

/-- Python strings, modelled as lists of unicode scalar values. -/
abbrev Str := List Char

/-- Python whitespace for `str.strip()` (ASCII subset; the engine only strips
payloads of directive strings). -/
def isPyWs (c : Char) : Bool :=
  c = ' ' || c = '\t' || c = '\n' || c = '\r' || c = '\x0b' || c = '\x0c'

/-- Model of `str.strip()`: drop whitespace from both ends. -/
def pyStrip (s : Str) : Str :=
  ((s.dropWhile isPyWs).reverse.dropWhile isPyWs).reverse

/-- Model of `str.lower` for one character (ASCII case mapping; every string
the engine compares case-insensitively is ASCII). -/
def lowerChar (c : Char) : Char := c.toLower

/-- Model of `str.lower`. -/
def pyLower (s : Str) : Str := s.map lowerChar

/-- Does `p` occur as a prefix of `s`? (model of `str.startswith`). -/
def strStarts : Str → Str → Bool
  | [], _ => true
  | _ :: _, [] => false
  | c :: p, d :: s => c == d && strStarts p s

/-- Model of `str.partition(" ")` restricted to what the dispatcher uses:
the part before the first space and the part after it (`parts[0]`,
`parts[-1]`; when there is no space the remainder is empty, matching
`partition`'s empty third component). -/
def partitionSpace : Str → Str × Str
  | [] => ([], [])
  | c :: tl =>
    if c = ' ' then ([], tl)
    else
      let (a, b) := partitionSpace tl
      (c :: a, b)

/-- Model of `str.split(sep)` for a one-character separator (keeps empty
pieces, like Python). -/
def splitChar (sep : Char) : Str → List Str
  | [] => [[]]
  | c :: tl =>
    if c = sep then [] :: splitChar sep tl
    else
      match splitChar sep tl with
      | [] => [[c]]
      | p :: ps => (c :: p) :: ps

/-- Is the first character of the string the given one? -/
def headIs (c : Char) : Str → Bool
  | [] => false
  | d :: _ => d == c

/-- Helper for `replaceAll`: if `pat` is a prefix of `s`, return the rest. -/
def dropPre : Str → Str → Option Str
  | [], s => some s
  | _ :: _, [] => none
  | c :: p, d :: s => if c = d then dropPre p s else none

/-- Fueled worker for `replaceAll`. -/
def replaceAllGo (pat : Str) : Nat → Str → Str
  | 0, s => s
  | _ + 1, [] => []
  | f + 1, c :: tl =>
    match dropPre pat (c :: tl) with
    | some rest => replaceAllGo pat f rest
    | none => c :: replaceAllGo pat f tl

/-- Model of Python `str.replace(pat, "")` (left-to-right, non-overlapping
deletion of every occurrence); the engine only ever replaces with the empty
string.  A nonempty `pat` consumes at least one character per step, so the
length-based fuel is never exhausted. -/
def replaceAll (s pat : Str) : Str := replaceAllGo pat (s.length + 1) s

/-- Membership of a string in a list of strings (`x in tuple_of_strings`). -/
def strMem (s : Str) : List Str → Bool
  | [] => false
  | t :: tl => s == t || strMem s tl

/-- Decimal digit characters in order; `digitChar d` is the character for
digit `d`. -/
def digitChar (d : Nat) : Char := Char.ofNat (48 + d)

/-- Numeric value of a decimal digit character. -/
def digitVal (c : Char) : Nat := c.toNat - 48

/-- Fueled worker producing the decimal digits of a natural number,
most-significant first (model of Python's `str(n)` for `n : Nat`). -/
def natCharsGo : Nat → Nat → Str
  | 0, _ => []
  | f + 1, n =>
    if n < 10 then [digitChar n]
    else natCharsGo f (n / 10) ++ [digitChar (n % 10)]

/-- Decimal representation of a natural number (no sign, no leading zeros). -/
def natChars (n : Nat) : Str := natCharsGo (n + 1) n

/-- Model of Python `str(i)` for an integer. -/
def intChars (i : Int) : Str :=
  if i < 0 then '-' :: natChars i.natAbs else natChars i.toNat

/-- Accumulating decimal reader. -/
def parseNatGo (acc : Nat) : Str → Nat
  | [] => acc
  | c :: tl => parseNatGo (acc * 10 + digitVal c) tl

/-- Read an all-digits string as a natural number. -/
def parseNat (s : Str) : Nat := parseNatGo 0 s

/-- Is the character an ASCII decimal digit? -/
def isDigitChar (c : Char) : Bool := c.isDigit

/-- Errors raised by the engine (Python exception classes; `fuelExhausted` is
the modelling artifact for the fuel bound and is unreachable on every path a
theorem below takes). -/
inductive PyErr where
  | keyError (k : Str)
  | valueError (s : Str)
  | typeError (s : Str)
  | jsonDecodeError (s : Str)
  | unmodelled (tag : Str)
  | fuelExhausted
deriving Repr, DecidableEq

/-- Split an optional leading sign off a (stripped) numeric literal. -/
def pyIntSign : Str → Bool × Str
  | [] => (false, [])
  | c :: tl =>
    if c = '-' then (true, tl)
    else if c = '+' then (false, tl)
    else (false, c :: tl)

/-- Model of Python `int(s)` on a string: optional surrounding whitespace,
optional sign, then at least one decimal digit.  (Python also accepts
underscore separators and non-ASCII digits; no input exercised below uses
them.) -/
def pyIntOfStr (s : Str) : Except PyErr Int :=
  let p := pyIntSign (pyStrip s)
  if p.2.isEmpty || !(p.2.all isDigitChar) then
    .error (.valueError s)
  else
    .ok (if p.1 then -((parseNat p.2 : Int)) else (parseNat p.2 : Int))

section NumLemmas

theorem toNat_ofNat_valid (n : Nat) (h : n.isValidChar) : (Char.ofNat n).toNat = n := by
  rw [Char.ofNat, dif_pos h]
  rfl

theorem digitVal_digitChar {d : Nat} (h : d < 10) : digitVal (digitChar d) = d := by
  interval_cases d <;> decide

theorem isDigitChar_digitChar {d : Nat} (h : d < 10) : isDigitChar (digitChar d) = true := by
  interval_cases d <;> decide

/-- Fuel irrelevance for `natCharsGo`: any fuel above the number suffices. -/
theorem natCharsGo_fuel : ∀ {f g n : Nat}, n < f → n < g →
    natCharsGo f n = natCharsGo g n := by
  intro f
  induction f using Nat.strong_induction_on with
  | _ f ih =>
    intro g n hf hg
    match f, g with
    | f' + 1, g' + 1 =>
      simp only [natCharsGo]
      by_cases h10 : n < 10
      · simp [h10]
      · simp only [if_neg h10]
        have hlt : n / 10 < n := Nat.div_lt_self (by omega) (by omega)
        exact congrArg (· ++ [digitChar (n % 10)])
          (ih f' (by omega) (by omega) (by omega))

theorem natChars_eq (n : Nat) :
    natChars n = if n < 10 then [digitChar n]
      else natChars (n / 10) ++ [digitChar (n % 10)] := by
  unfold natChars
  conv_lhs => rw [natCharsGo]
  by_cases h10 : n < 10
  · simp [h10]
  · simp only [if_neg h10]
    have hlt : n / 10 < n := Nat.div_lt_self (by omega) (by omega)
    exact congrArg (· ++ [digitChar (n % 10)])
      (natCharsGo_fuel (by omega) (by omega))

/-- Every character of a decimal representation is a digit. -/
theorem natChars_digits (n : Nat) : ∀ c ∈ natChars n, isDigitChar c = true := by
  induction n using Nat.strong_induction_on with
  | _ n ih =>
    intro c hc
    rw [natChars_eq] at hc
    by_cases h10 : n < 10
    · rw [if_pos h10] at hc
      simp only [List.mem_singleton] at hc
      subst hc
      exact isDigitChar_digitChar h10
    · rw [if_neg h10] at hc
      have hlt : n / 10 < n := Nat.div_lt_self (by omega) (by omega)
      rcases List.mem_append.mp hc with h | h
      · exact ih _ hlt c h
      · simp only [List.mem_singleton] at h
        subst h
        exact isDigitChar_digitChar (by omega)

theorem natChars_all_digits (n : Nat) : (natChars n).all isDigitChar = true :=
  List.all_eq_true.mpr (natChars_digits n)

theorem natChars_ne_nil (n : Nat) : natChars n ≠ [] := by
  rw [natChars_eq]
  by_cases h10 : n < 10
  · simp [h10]
  · rw [if_neg h10]
    intro h
    have := List.append_eq_nil.mp h
    simp at this

theorem parseNatGo_append (acc : Nat) (a b : Str) :
    parseNatGo acc (a ++ b) = parseNatGo (parseNatGo acc a) b := by
  induction a generalizing acc with
  | nil => rfl
  | cons c tl ih => exact ih (acc * 10 + digitVal c)

/-- The accumulator semantics of the decimal reader on a representation. -/
theorem parseNatGo_natChars (n : Nat) : ∀ acc : Nat,
    parseNatGo acc (natChars n) = acc * 10 ^ (natChars n).length + n := by
  induction n using Nat.strong_induction_on with
  | _ n ih =>
    intro acc
    rw [natChars_eq]
    by_cases h10 : n < 10
    · rw [if_pos h10,
        show parseNatGo acc [digitChar n] = acc * 10 + digitVal (digitChar n) from rfl,
        digitVal_digitChar h10]
      simp [pow_one]
    · have hlt : n / 10 < n := Nat.div_lt_self (by omega) (by omega)
      simp only [if_neg h10]
      rw [parseNatGo_append, ih _ hlt,
        show ∀ (A : Nat) (d : Char), parseNatGo A [d] = A * 10 + digitVal d
          from fun A d => rfl,
        digitVal_digitChar (show n % 10 < 10 by omega)]
      simp only [List.length_append, List.length_cons, List.length_nil, Nat.zero_add]
      rw [pow_succ]
      generalize (10 : Nat) ^ (natChars (n / 10)).length = k
      have hdm : n / 10 * 10 + n % 10 = n := by omega
      ring_nf
      omega

/-- Reading back the decimal representation gives the number. -/
theorem parseNat_natChars (n : Nat) : parseNat (natChars n) = n := by
  unfold parseNat
  rw [parseNatGo_natChars]
  simp

theorem isPyWs_false_of_digit {c : Char} (h : isDigitChar c = true) : isPyWs c = false := by
  by_contra hw
  simp only [Bool.not_eq_false, isPyWs, Bool.or_eq_true, decide_eq_true_eq] at hw
  rcases hw with ((((h1 | h1) | h1) | h1) | h1) | h1 <;>
    (subst h1; exact absurd h (by decide))

theorem dropWhile_eq_self_of_no_match {p : Char → Bool} {s : Str}
    (h : ∀ c ∈ s, p c = false) : s.dropWhile p = s := by
  cases s with
  | nil => rfl
  | cons c tl => simp [List.dropWhile_cons, h c (by simp)]

/-- `str.strip` is the identity on strings with no whitespace characters. -/
theorem strip_of_no_ws {s : Str} (h : ∀ c ∈ s, isPyWs c = false) : pyStrip s = s := by
  unfold pyStrip
  rw [dropWhile_eq_self_of_no_match h,
    dropWhile_eq_self_of_no_match (by
      intro c hc
      exact h c (List.mem_reverse.mp hc)),
    List.reverse_reverse]

theorem natChars_no_ws (n : Nat) : ∀ c ∈ natChars n, isPyWs c = false := by
  intro c hc
  exact isPyWs_false_of_digit (natChars_digits n c hc)

/-- The branch structure of `pyIntOfStr` on a signless all-digit string. -/
theorem pyIntSign_digits {s : Str} (hne : s ≠ [])
    (hdig : ∀ c ∈ s, isDigitChar c = true) : pyIntSign s = (false, s) := by
  rcases s with _ | ⟨c, tl⟩
  · exact absurd rfl hne
  · have hcd : isDigitChar c = true := hdig c (by simp)
    show (if c = '-' then (true, tl)
      else if c = '+' then (false, tl) else (false, c :: tl)) = (false, c :: tl)
    rw [if_neg (fun h => absurd hcd (by subst h; decide)),
      if_neg (fun h => absurd hcd (by subst h; decide))]

/-- Python `int()` inverts the decimal printer. -/
theorem pyIntOfStr_intChars (i : Int) : pyIntOfStr (intChars i) = .ok i := by
  unfold intChars pyIntOfStr
  by_cases hneg : i < 0
  · simp only [if_pos hneg]
    rw [strip_of_no_ws (by
      intro c hc
      rcases List.mem_cons.mp hc with h | h
      · subst h; rfl
      · exact natChars_no_ws _ c h)]
    have hsgn : pyIntSign ('-' :: natChars i.natAbs) = (true, natChars i.natAbs) := rfl
    rw [hsgn]
    have hne := natChars_ne_nil i.natAbs
    rcases hs : natChars i.natAbs with _ | ⟨c, tl⟩
    · exact absurd hs hne
    · rw [if_neg (by
        simp only [Bool.or_eq_true, not_or, List.isEmpty_cons]
        refine ⟨by simp, by
          simp only [Bool.not_eq_true', Bool.not_eq_false]
          rw [← hs]
          exact natChars_all_digits i.natAbs⟩)]
      simp only [if_pos rfl, Except.ok.injEq]
      rw [← hs, show parseNat (natChars i.natAbs) = i.natAbs from parseNat_natChars _,
        Int.ofNat_natAbs_of_nonpos (le_of_lt hneg)]
      simp
  · simp only [if_neg hneg]
    rw [strip_of_no_ws (natChars_no_ws _),
      pyIntSign_digits (natChars_ne_nil i.toNat) (natChars_digits i.toNat)]
    have hne := natChars_ne_nil i.toNat
    rcases hs : natChars i.toNat with _ | ⟨c, tl⟩
    · exact absurd hs hne
    · rw [if_neg (by
        simp only [Bool.or_eq_true, not_or, List.isEmpty_cons]
        refine ⟨by simp, by
          simp only [Bool.not_eq_true', Bool.not_eq_false]
          rw [← hs]
          exact natChars_all_digits i.toNat⟩)]
      simp only [Except.ok.injEq, if_neg (by simp : ¬(false = true))]
      rw [← hs, show parseNat (natChars i.toNat) = i.toNat from parseNat_natChars _]
      omega

end NumLemmas

/-! ## Data model -/

/-- Python floats, modelled by their canonical shortest `repr` strings for
finite values (Python guarantees `float(repr(x)) == x`), plus the three
non-finite values.  `nan` participates in `floatEq` as in Python
(`nan != nan`). -/
inductive PyFloat where
  | finite (r : Str)
  | inf
  | neginf
  | nan

/-- The two builtin formatters (`Formatters.python_formatter` with token
`"format"`, backed by `str.format`, and `Formatters.jinja_formatter` with
token `"jinja"`). -/
inductive FormatterTag where
  | format
  | jinja
deriving DecidableEq

/-- The post-render casts a converter can attach to a `Lazy` value
(`str`, `int`, `float`, the `@bool` truthy-set lambda, and the `@json`
quote-swapping lambda).  `add_converter`-registered user casts are outside
the builtin registry and not modelled. -/
inductive Casting where
  | toStr
  | toInt
  | toFloat
  | toBool
  | toJson
deriving DecidableEq

/-- Model of the `Lazy` class: a template string, a formatter, an optional
post-render cast, and the `settings` attribute that `__call__` assigns
(absent until the first evaluation). -/
structure Lazy where
  value : Str
  formatter : FormatterTag
  casting : Option Casting
  settings : Option (List (Str × Str))
deriving DecidableEq

mutual
/-- The dynamic values the engine manipulates: `None`, the `empty` sentinel,
booleans, ints, floats, strings, lists, string-keyed dicts (the engine's
mappings all have string keys; `DynaBox` is a `dict` subclass and is
modelled as a plain mapping), `Lazy` values, and the three meta-value
wrappers (`Reset`, `Del`, `Merge`). -/
inductive PyVal where
  | none
  | empty
  | bool (b : Bool)
  | int (n : Int)
  | float (x : PyFloat)
  | str (s : Str)
  | list (xs : PyList)
  | dict (kvs : PyDict)
  | lazy (l : Lazy)
  | metaReset (v : PyVal)
  | metaDel (v : PyVal)
  | merge (value : PyVal) (unique : Bool)
/-- Lists of `PyVal` (spelled out so that the mutual recursion stays
structural). -/
inductive PyList where
  | nil
  | cons (v : PyVal) (tl : PyList)
/-- Ordered string-keyed mappings of `PyVal`. -/
inductive PyDict where
  | nil
  | cons (k : Str) (v : PyVal) (tl : PyDict)
end

/-- Build a `PyList` from a Lean list. -/
def pyList : List PyVal → PyList
  | [] => .nil
  | v :: tl => .cons v (pyList tl)

/-- Build a `PyDict` from a Lean association list. -/
def pyDict : List (Str × PyVal) → PyDict
  | [] => .nil
  | (k, v) :: tl => .cons k v (pyDict tl)

/-- Python `==` on modelled floats: `nan` is unequal to everything
(including itself); finite floats compare by their canonical repr, which is
injective on the floats the model can denote. -/
def floatEq : PyFloat → PyFloat → Bool
  | .nan, _ => false
  | _, .nan => false
  | .finite r, .finite t => r == t
  | .inf, .inf => true
  | .neginf, .neginf => true
  | _, _ => false

mutual
/-- Python `==` on modelled values.  Cross-type numeric equality is modelled
for `bool`/`int` (Python's `bool` is an `int`); `int`/`float` cross equality
is not modelled (no theorem below compares across those constructors).
`Lazy` and meta-value wrappers use Python's default identity equality, and
every comparison below is between separately constructed objects, so those
cases are `false`. -/
def pyEq : PyVal → PyVal → Bool
  | .none, .none => true
  | .empty, .empty => true
  | .bool a, .bool b => a == b
  | .bool a, .int n => (if a then (1 : Int) else 0) == n
  | .int n, .bool a => n == (if a then (1 : Int) else 0)
  | .int m, .int n => m == n
  | .float x, .float y => floatEq x y
  | .str a, .str b => a == b
  | .list xs, .list ys => pyEqL xs ys
  | .dict a, .dict b => pyEqD a b
  | _, _ => false
/-- Pointwise Python `==` on lists. -/
def pyEqL : PyList → PyList → Bool
  | .nil, .nil => true
  | .cons v tl, .cons w tl2 => pyEq v w && pyEqL tl tl2
  | _, _ => false
/-- Python `==` on mappings.  Python's dict equality is key-based and
order-insensitive; the model compares pointwise in order, which agrees with
Python whenever the two sides list their keys in the same order — and every
comparison below is between a mapping and its order-preserving parse. -/
def pyEqD : PyDict → PyDict → Bool
  | .nil, .nil => true
  | .cons k v tl, .cons k2 v2 tl2 => k == k2 && pyEq v v2 && pyEqD tl tl2
  | _, _ => false
end

/-- Model of Python `str(value)` (and the f-string conversion in
`parse_with_toml`'s `f"key={data}"`).  Containers and meta values stringify
to reprs that begin with `<` or `[`/`{`; only the scalar, string and `Lazy`
cases are ever consulted by an exercised path (the walker recurses into
containers before `_parse_conf_data` runs), so container reprs are
abbreviated placeholders that the TOML fallback rejects exactly as it
rejects the real reprs. -/
def pyStr : PyVal → Str
  | .none => "None".data
  | .empty => "<dynaconf.empty>".data
  | .bool true => "True".data
  | .bool false => "False".data
  | .int n => intChars n
  | .float (.finite r) => r
  | .float .inf => "inf".data
  | .float .neginf => "-inf".data
  | .float .nan => "nan".data
  | .str s => s
  | .list _ => "<listrepr>".data
  | .dict _ => "<dictrepr>".data
  | .lazy l => l.value
  | .metaReset _ => "<Reset object>".data
  | .metaDel _ => "<Del object>".data
  | .merge _ _ => "<Merge object>".data

/-! ## JSON (model of `json.dumps` with default options and of
`json.loads` / `JSONDecoder.raw_decode`) -/

/-- Lowercase hex digit characters. -/
def hexDigit (n : Nat) : Char :=
  if n < 10 then Char.ofNat (48 + n) else Char.ofNat (87 + n)

/-- Four-digit lowercase hex (for `\uXXXX` escapes). -/
def hex4 (n : Nat) : Str :=
  [hexDigit (n / 4096 % 16), hexDigit (n / 256 % 16), hexDigit (n / 16 % 16), hexDigit (n % 16)]

/-- `ensure_ascii` escape of one character outside the printable ASCII
range: basic-plane scalars become one `\uXXXX`, astral scalars become a
surrogate pair. -/
def uEsc (c : Char) : Str :=
  if c.toNat < 65536 then '\\' :: 'u' :: hex4 c.toNat
  else
    ('\\' :: 'u' :: hex4 (55296 + (c.toNat - 65536) / 1024))
      ++ ('\\' :: 'u' :: hex4 (56320 + (c.toNat - 65536) % 1024))

/-- Model of `json.dumps`'s string escaping (default `ensure_ascii=True`):
quote, backslash and the shorthand control escapes, `\uXXXX` for the other
characters outside `0x20..0x7e`. -/
def escChar (c : Char) : Str :=
  if c = '"' then ['\\', '"']
  else if c = '\\' then ['\\', '\\']
  else if c = '\n' then ['\\', 'n']
  else if c = '\t' then ['\\', 't']
  else if c = '\r' then ['\\', 'r']
  else if c = '\x08' then ['\\', 'b']
  else if c = '\x0c' then ['\\', 'f']
  else if 32 ≤ c.toNat ∧ c.toNat ≤ 126 then [c]
  else uEsc c

/-- Escape a whole string. -/
def escStr : Str → Str
  | [] => []
  | c :: tl => escChar c ++ escStr tl

mutual
/-- Model of `json.dumps(value)` with the default separators `", "` and
`": "`; `none` signals the `TypeError` raised on non-serializable values
(`Lazy`, meta wrappers, the `empty` sentinel). -/
def json_dumps : PyVal → Option Str
  | .none => some "null".data
  | .bool true => some "true".data
  | .bool false => some "false".data
  | .int n => some (intChars n)
  | .float (.finite r) => some r
  | .float .inf => some "Infinity".data
  | .float .neginf => some "-Infinity".data
  | .float .nan => some "NaN".data
  | .str s => some ('"' :: escStr s ++ ['"'])
  | .list xs => (json_dumpsL xs).map (fun b => '[' :: b ++ [']'])
  | .dict kvs => (json_dumpsD kvs).map (fun b => '\x7b' :: b ++ ['\x7d'])
  | .lazy _ => Option.none
  | .metaReset _ => Option.none
  | .metaDel _ => Option.none
  | .merge _ _ => Option.none
  | .empty => Option.none
/-- Comma-separated dump of list elements. -/
def json_dumpsL : PyList → Option Str
  | .nil => some []
  | .cons v .nil => json_dumps v
  | .cons v (.cons w tl) =>
    match json_dumps v, json_dumpsL (.cons w tl) with
    | some a, some b => some (a ++ ',' :: ' ' :: b)
    | _, _ => Option.none
/-- Comma-separated dump of dict entries. -/
def json_dumpsD : PyDict → Option Str
  | .nil => some []
  | .cons k v .nil =>
    (json_dumps v).map (fun b => '"' :: escStr k ++ '"' :: ':' :: ' ' :: b)
  | .cons k v (.cons k2 w tl) =>
    match json_dumps v, json_dumpsD (.cons k2 w tl) with
    | some a, some b => some (('"' :: escStr k ++ '"' :: ':' :: ' ' :: a) ++ ',' :: ' ' :: b)
    | _, _ => Option.none
end

/-- JSON whitespace skipped by the decoder. -/
def jSkipWs (s : Str) : Str :=
  s.dropWhile (fun c => c = ' ' || c = '\t' || c = '\n' || c = '\r')

/-- Hex digit value (the decoder accepts both cases). -/
def jHexVal (c : Char) : Option Nat :=
  if '0' ≤ c ∧ c ≤ '9' then some (c.toNat - 48)
  else if 'a' ≤ c ∧ c ≤ 'f' then some (c.toNat - 87)
  else if 'A' ≤ c ∧ c ≤ 'F' then some (c.toNat - 55)
  else Option.none

/-- Shorthand escapes accepted after a backslash. -/
def escShort (e : Char) : Option Char :=
  if e = '"' then some '"'
  else if e = '\\' then some '\\'
  else if e = '/' then some '/'
  else if e = 'b' then some '\x08'
  else if e = 'f' then some '\x0c'
  else if e = 'n' then some '\n'
  else if e = 'r' then some '\r'
  else if e = 't' then some '\t'
  else Option.none

/-- Decode a JSON string body (the characters after the opening quote)
into its UTF-16 code units, returning the units and the input after the
closing quote.  Mirrors the per-escape scan of `py_scanstring`. -/
def jUnits : Str → Option (List Nat × Str)
  | [] => Option.none
  | c :: tl =>
    if c = '"' then some ([], tl)
    else if c = '\\' then
      match tl with
      | [] => Option.none
      | e :: tl2 =>
        if e = 'u' then
          match tl2 with
          | h1 :: h2 :: h3 :: h4 :: tl3 =>
            (match jHexVal h1, jHexVal h2, jHexVal h3, jHexVal h4 with
            | some a, some b, some c1, some d =>
              match jUnits tl3 with
              | some (us, rest) => some ((a * 4096 + b * 256 + c1 * 16 + d) :: us, rest)
              | Option.none => Option.none
            | _, _, _, _ => Option.none)
          | _ => Option.none
        else
          match escShort e, jUnits tl2 with
          | some c2, some (us, rest) => some (c2.toNat :: us, rest)
          | _, _ => Option.none
    else if c.toNat < 32 then Option.none
    else
      match jUnits tl with
      | some (us, rest) => some (c.toNat :: us, rest)
      | Option.none => Option.none

/-- Recombine the decoded code units into characters, pairing a high
surrogate from a `\uXXXX` escape with the following low surrogate as
Python's decoder does.  A lone surrogate would produce a non-scalar code
unit that Python keeps in its `str` but a Lean `Char` cannot hold — it is
rejected here, and is unreachable from any `json_dumps` output. -/
def jCombine : List Nat → Option Str
  | [] => some []
  | u :: us =>
    if 55296 ≤ u ∧ u ≤ 56319 then
      match us with
      | [] => Option.none
      | u2 :: us2 =>
        if 56320 ≤ u2 ∧ u2 ≤ 57343 then
          match jCombine us2 with
          | some content => some (Char.ofNat (65536 + (u - 55296) * 1024 + (u2 - 56320)) :: content)
          | Option.none => Option.none
        else Option.none
    else if 56320 ≤ u ∧ u ≤ 57343 then Option.none
    else
      match jCombine us with
      | some content => some (Char.ofNat u :: content)
      | Option.none => Option.none

/-- Decode a JSON string body (the characters after the opening quote),
returning the content and the input after the closing quote: unit
decoding followed by surrogate recombination. -/
def jString (s : Str) : Option (Str × Str) :=
  match jUnits s with
  | some (us, rest) =>
    match jCombine us with
    | some content => some (content, rest)
    | Option.none => Option.none
  | Option.none => Option.none

/-- UTF-16 code units of one character (model-side, for the round-trip
proof). -/
def unitsOfChar (c : Char) : List Nat :=
  if c.toNat < 65536 then [c.toNat]
  else [55296 + (c.toNat - 65536) / 1024, 56320 + (c.toNat - 65536) % 1024]

/-- UTF-16 code units of a string. -/
def unitsOfStr : Str → List Nat
  | [] => []
  | c :: tl => unitsOfChar c ++ unitsOfStr tl

/-- Consume the integer part of a JSON number (`0` or a nonzero digit
followed by digits), returning the consumed digits and the rest. -/
def jIntPart : Str → Option (Str × Str)
  | [] => Option.none
  | c :: tl =>
    if c = '0' then some ([c], tl)
    else if isDigitChar c then some (c :: tl.takeWhile isDigitChar, tl.dropWhile isDigitChar)
    else Option.none

/-- Consume an optional fraction group `\.\d+` (matching nothing when the
group does not apply, like the optional regex group in Python's scanner). -/
def jFracPart : Str → Str × Str
  | [] => ([], [])
  | c :: tl =>
    if c = '.' then
      match tl with
      | [] => ([], c :: tl)
      | d :: tl2 =>
        if isDigitChar d then
          (c :: d :: tl2.takeWhile isDigitChar, tl2.dropWhile isDigitChar)
        else ([], c :: tl)
    else ([], c :: tl)

/-- Consume an optional exponent group `[eE][-+]?\d+`. -/
def jExpPart : Str → Str × Str
  | [] => ([], [])
  | c :: tl =>
    if c = 'e' || c = 'E' then
      match tl with
      | [] => ([], c :: tl)
      | sgn :: tl2 =>
        if sgn = '+' || sgn = '-' then
          match tl2 with
          | [] => ([], c :: tl)
          | d :: tl3 =>
            if isDigitChar d then
              (c :: sgn :: d :: tl3.takeWhile isDigitChar, tl3.dropWhile isDigitChar)
            else ([], c :: tl)
        else if isDigitChar sgn then
          (c :: sgn :: tl2.takeWhile isDigitChar, tl2.dropWhile isDigitChar)
        else ([], c :: tl)
    else ([], c :: tl)

/-- Model of the number token scan in Python's JSON decoder
(`NUMBER_RE = (-?(?:0|[1-9]\d*))(\.\d+)?([eE][-+]?\d+)?`): returns
`(is_float, token, rest)`. -/
def numScan (s : Str) : Option (Bool × Str × Str) :=
  let sgn : Bool := headIs '-' s
  let s1 : Str := if sgn then s.drop 1 else s
  match jIntPart s1 with
  | Option.none => Option.none
  | some (ip, r1) =>
    let fp := jFracPart r1
    let ep := jExpPart fp.2
    let tok := (if sgn then ['-'] else []) ++ ip ++ fp.1 ++ ep.1
    some (!(fp.1.isEmpty && ep.1.isEmpty), tok, ep.2)

/-- Read a signed all-digits token as an integer. -/
def intOfTok (t : Str) : Int :=
  if headIs '-' t then -((parseNat (t.drop 1) : Int)) else (parseNat t : Int)

mutual
/-- Fueled model of the JSON value scanner (`JSONDecoder.raw_decode` at one
position): parse one value and return it with the unconsumed rest.  Float
tokens are mapped to `PyFloat.finite` of the token itself, which models
`float(token)` exactly on the canonical-repr tokens that `json_dumps`
emits (the only float tokens an exercised path decodes). -/
def jParseVal : Nat → Str → Option (PyVal × Str)
  | 0, _ => Option.none
  | f + 1, s =>
    match s with
    | [] => Option.none
    | c :: tl =>
      if c = '"' then
        match jString tl with
        | some (content, rest) => some (.str content, rest)
        | Option.none => Option.none
      else if c = '[' then
        let t := jSkipWs tl
        if headIs ']' t then some (.list .nil, t.drop 1)
        else
          match jParseItems f t with
          | some (xs, r) => some (.list xs, r)
          | Option.none => Option.none
      else if c = '\x7b' then
        let t := jSkipWs tl
        if headIs '\x7d' t then some (.dict .nil, t.drop 1)
        else
          match jParsePairs f t with
          | some (kvs, r) => some (.dict kvs, r)
          | Option.none => Option.none
      else if strStarts "true".data s then some (.bool true, s.drop 4)
      else if strStarts "false".data s then some (.bool false, s.drop 5)
      else if strStarts "null".data s then some (.none, s.drop 4)
      else if strStarts "NaN".data s then some (.float .nan, s.drop 3)
      else if strStarts "Infinity".data s then some (.float .inf, s.drop 8)
      else if strStarts "-Infinity".data s then some (.float .neginf, s.drop 9)
      else
        match numScan s with
        | some (isF, tok, rest) =>
          if isF then some (.float (.finite tok), rest)
          else some (.int (intOfTok tok), rest)
        | Option.none => Option.none
/-- Parse the elements of a nonempty JSON array (input begins at the first
element, whitespace already skipped). -/
def jParseItems : Nat → Str → Option (PyList × Str)
  | 0, _ => Option.none
  | f + 1, s =>
    match jParseVal f s with
    | some (v, r) =>
      let t := jSkipWs r
      if headIs ',' t then
        match jParseItems f (jSkipWs (t.drop 1)) with
        | some (tl, r3) => some (.cons v tl, r3)
        | Option.none => Option.none
      else if headIs ']' t then some (.cons v .nil, t.drop 1)
      else Option.none
    | Option.none => Option.none
/-- Parse the entries of a nonempty JSON object (input begins at the first
key, whitespace already skipped). -/
def jParsePairs : Nat → Str → Option (PyDict × Str)
  | 0, _ => Option.none
  | f + 1, s =>
    if headIs '"' s then
      match jString (s.drop 1) with
      | some (k, r) =>
        let t := jSkipWs r
        if headIs ':' t then
          match jParseVal f (jSkipWs (t.drop 1)) with
          | some (v, r3) =>
            let t2 := jSkipWs r3
            if headIs ',' t2 then
              match jParsePairs f (jSkipWs (t2.drop 1)) with
              | some (kvs, r5) => some (.cons k v kvs, r5)
              | Option.none => Option.none
            else if headIs '\x7d' t2 then some (.cons k v .nil, t2.drop 1)
            else Option.none
          | Option.none => Option.none
        else Option.none
      | Option.none => Option.none
    else Option.none
end

/-- Model of `json.loads`: skip whitespace, parse one value, require only
whitespace afterwards.  The self-computed fuel exceeds any recursion depth
the scanner can reach on the input. -/
def json_loads (s : Str) : Except PyErr PyVal :=
  match jParseVal (2 * s.length + 4) (jSkipWs s) with
  | some (v, r) =>
    if (jSkipWs r).isEmpty then .ok v else .error (.jsonDecodeError s)
  | Option.none => .error (.jsonDecodeError s)

/-! ## Floats -/

/-- The special spellings `float()` accepts (case-insensitively) for
non-finite values. -/
def float_specials : List (Str × PyFloat) :=
  [("inf".data, .inf), ("+inf".data, .inf), ("-inf".data, .neginf),
   ("infinity".data, .inf), ("+infinity".data, .inf), ("-infinity".data, .neginf),
   ("nan".data, .nan), ("+nan".data, .nan), ("-nan".data, .nan)]

/-- Look up a lowered spelling among the specials. -/
def floatSpecialLookup (t : Str) : Option PyFloat :=
  (float_specials.find? (fun p => p.1 == t)).map (fun p => p.2)

/-- Model of Python `float(s)`: strip, then accept a decimal literal (kept
as the canonical repr it already is on every exercised input — `float` maps
a canonical shortest repr back to the float it denotes) or one of the
special non-finite spellings.  Literal shapes Python additionally accepts
(`"5."`, `".5"`, leading `+`, underscores) are not exercised by any claim
and are modelled as errors. -/
def pyFloatOfStr (s : Str) : Except PyErr PyFloat :=
  let t := pyStrip s
  match numScan t with
  | some (isF, tok, rest) =>
    if rest.isEmpty then
      .ok (if isF then .finite tok else .finite (tok ++ ['.', '0']))
    else .error (.valueError s)
  | Option.none =>
    match floatSpecialLookup (pyLower t) with
    | some x => .ok x
    | Option.none => .error (.valueError s)

/-- Well-formedness of a finite-float repr in the model: a complete JSON
float token that is exactly the scanned token and carries no surrounding
whitespace (canonical Python reprs such as `1.5`, `-0.25`, `1e+16`,
`4.2e-05` all are). -/
def floatReprOk (r : Str) : Bool :=
  match numScan r with
  | some (isF, tok, rest) => isF && rest.isEmpty && tok == r && pyStrip r == r
  | Option.none => false

/-- Well-formedness of a modelled float. -/
def pyFloatWf : PyFloat → Bool
  | .finite r => floatReprOk r
  | _ => true

/-! ## TOML fallback (`parse_with_toml`) -/

/-- Model of the TOML value grammar fragment that `tomllib.loads(f"key={data}")`
can successfully interpret on the inputs the claims exercise: booleans
(lowercase), and decimal integer/float literals.  Quoted strings, arrays,
inline tables, dates, non-finite floats and underscore-grouped numbers are
declined; on every concrete input reaching the fallback in the theorems
below the real parser also fails (bare words, `@`-prefixed words,
colon-separated inline tables), so declining coincides with `parse_with_toml`
returning the raw value unchanged. -/
def toml_scalar (s : Str) : Option PyVal :=
  let t := pyStrip s
  match t with
  | [] => Option.none
  | c :: _ =>
    if c = 't' then (if t = "true".data then some (.bool true) else Option.none)
    else if c = 'f' then (if t = "false".data then some (.bool false) else Option.none)
    else if isDigitChar c || c = '-' then
      match numScan t with
      | some (isF, tok, rest) =>
        if rest.isEmpty then
          some (if isF then .float (.finite tok) else .int (intOfTok tok))
        else Option.none
      | Option.none => Option.none
    else Option.none

/-- Model of `parse_with_toml(data)`: try to parse `f"key={data}"` as one
TOML assignment and return the parsed value, falling back to `data`
unchanged on any decode error. -/
def parse_with_toml (d : PyVal) : PyVal :=
  match d with
  | .str s => (toml_scalar s).getD (.str s)
  | other => (toml_scalar (pyStr other)).getD other

/-! ## The `str.format` substitution formatter -/

/-- Values living in a format/render context: the tables (`env`, `this`)
and the validator reference slot. -/
inductive CtxVal where
  | table (t : List (Str × Str))
  | vref (v : Option Str)

/-- Association lookup in a context. -/
def ctxLookup (ctx : List (Str × CtxVal)) (name : Str) : Option CtxVal :=
  (ctx.find? (fun p => p.1 == name)).map (fun p => p.2)

/-- Association lookup in a string table. -/
def tableLookup (t : List (Str × Str)) (k : Str) : Option Str :=
  (t.find? (fun p => p.1 == k)).map (fun p => p.2)

/-- Parse the `[key]` index chain of a replacement field, returning the keys
and the input after the closing brace. -/
def fieldIdxChain : Nat → Str → List Str → Option (List Str × Str)
  | 0, _, _ => Option.none
  | f + 1, s, acc =>
    match s with
    | '[' :: tl =>
      let key := tl.takeWhile (fun c => !(c = ']'))
      (match tl.dropWhile (fun c => !(c = ']')) with
      | ']' :: r => fieldIdxChain f r (acc ++ [key])
      | _ => Option.none)
    | '\x7d' :: r => some (acc, r)
    | _ => Option.none

/-- Parse a replacement field after its opening brace: a name, then an
optional `[key]` chain, then the closing brace.  Conversion (`!r`) and
format-spec (`:…`) syntax is not modelled (no exercised template uses it);
such characters end up in the name and fail the lookup. -/
def parseField (s : Str) : Option (Str × List Str × Str) :=
  let nm := s.takeWhile (fun c => !(c = '\x7d' || c = '['))
  let r1 := s.dropWhile (fun c => !(c = '\x7d' || c = '['))
  match fieldIdxChain (s.length + 1) r1 [] with
  | some (idxs, rest) => some (nm, idxs, rest)
  | Option.none => Option.none

/-- Resolve a replacement field against the context: a bare name formats
the looked-up object with `str()` (only needed for error cases here), and
`name[key]` indexes into a table.  A missing name or key raises `KeyError`,
as `str.format` does. -/
def resolveField (ctx : List (Str × CtxVal)) (nm : Str) (idxs : List Str) :
    Except PyErr Str :=
  match ctxLookup ctx nm with
  | Option.none => .error (.keyError nm)
  | some (.table t) =>
    match idxs with
    | [] => .error (.unmodelled "str() of a mapping in a template".data)
    | [k] =>
      (match tableLookup t k with
      | some v => .ok v
      | Option.none => .error (.keyError k))
    | _ => .error (.unmodelled "nested indexing below a string".data)
  | some (.vref _) => .error (.unmodelled "formatting a validator reference".data)

/-- Fueled scanner for `str.format`: literal text, doubled-brace escapes
(`\x7b\x7b` renders as a literal brace, likewise `\x7d\x7d`), and
replacement fields.  A single stray closing brace is a `ValueError`, as in
Python. -/
def strFormatGo (ctx : List (Str × CtxVal)) : Nat → Str → Except PyErr Str
  | 0, _ => .error (.unmodelled "format fuel".data)
  | _ + 1, [] => .ok []
  | f + 1, '\x7b' :: '\x7b' :: tl =>
    (match strFormatGo ctx f tl with
    | .ok out => .ok ('\x7b' :: out)
    | .error e => .error e)
  | f + 1, '\x7d' :: '\x7d' :: tl =>
    (match strFormatGo ctx f tl with
    | .ok out => .ok ('\x7d' :: out)
    | .error e => .error e)
  | _ + 1, '\x7d' :: _ => .error (.valueError "Single brace encountered".data)
  | f + 1, '\x7b' :: tl =>
    (match parseField tl with
    | some (nm, idxs, rest) =>
      (match resolveField ctx nm idxs with
      | .ok v =>
        (match strFormatGo ctx f rest with
        | .ok out => .ok (v ++ out)
        | .error e => .error e)
      | .error e => .error e)
    | Option.none => .error (.valueError "expected closing brace".data))
  | f + 1, c :: tl =>
    (match strFormatGo ctx f tl with
    | .ok out => .ok (c :: out)
    | .error e => .error e)

/-- Model of `str.format(template, **context)` for the fields the engine
uses. -/
def str_format (tmpl : Str) (ctx : List (Str × CtxVal)) : Except PyErr Str :=
  strFormatGo ctx (tmpl.length + 1) tmpl

/-! ## Truthy tokens and casts -/

/-- The fixed truthy spellings (`true_values` at the top of the module). -/
def true_values : List Str :=
  ["t".data, "true".data, "enabled".data, "1".data, "on".data, "yes".data, "True".data]

/-- The fixed falsy spellings (`false_values`); used by the module to
default the auto-cast toggle from the environment, which the model takes as
an explicit `castenabled` argument. -/
def false_values : List Str :=
  ["f".data, "false".data, "disabled".data, "0".data, "off".data, "no".data,
   "False".data, [] ]

/-- Replace every `a` by `b` in a string (model of `str.replace` for
one-character patterns, used by the `@json` cast's quote swapping). -/
def replaceChar (a b : Char) (s : Str) : Str :=
  s.map (fun c => if c = a then b else c)

/-- Apply a stored post-render cast to the rendered string, exactly as the
registered lambdas do: `int`/`float`/`str` builtins, the truthy-set bool
lambda `str(x).lower() in true_values`, and the `@json` lambda
`json.loads(x.replace("'", '"'))`. -/
def Casting.apply : Casting → Str → Except PyErr PyVal
  | .toStr, s => .ok (.str s)
  | .toInt, s => PyVal.int <$> pyIntOfStr s
  | .toFloat, s => PyVal.float <$> pyFloatOfStr s
  | .toBool, s => .ok (.bool (strMem (pyLower s) true_values))
  | .toJson, s => json_loads (replaceChar '\'' '"' s)

/-! ## `Lazy` evaluation -/

/-- Model of the `Lazy.context` property: it builds a fresh dict
`{"env": os.environ, "this": self.settings}` at every access (the
environment is an explicit argument of the model). -/
def Lazy.context (l : Lazy) (env : List (Str × Str)) : List (Str × CtxVal) :=
  [("env".data, .table env), ("this".data, .table (l.settings.getD []))]

/-- Model of `Lazy.set_casting`: sets the casting and returns the instance. -/
def Lazy.set_casting (l : Lazy) (c : Casting) : Lazy :=
  { l with casting := some c }

/-- Model of `Lazy.__call__(settings, validator_object)`.  It first assigns
`self.settings = settings` (a genuine mutation of the instance, returned as
the second component).  The source line
`self.context["_validator_object"] = validator_object` writes into the
fresh dict returned by the `context` property; that dict is discarded
(`_discarded` below), and `self.formatter(self.value, **self.context)`
re-invokes the property, so the formatter receives a context without the
validator entry.  The rendered string is then passed through the stored
cast, if any. -/
def Lazy.call (l : Lazy) (env : List (Str × Str)) (settings : List (Str × Str))
    (validator_object : Option Str) : Except PyErr PyVal × Lazy :=
  let l1 : Lazy := { l with settings := some settings }
  let _discarded : List (Str × CtxVal) :=
    l1.context env ++ [("_validator_object".data, .vref validator_object)]
  let rendered : Except PyErr Str :=
    match l1.formatter with
    | .format => str_format l1.value (l1.context env)
    | .jinja => .error (.unmodelled "jinja2 template rendering".data)
  let result : Except PyErr PyVal :=
    match rendered with
    | .error e => .error e
    | .ok rs =>
      match l1.casting with
      | Option.none => .ok (.str rs)
      | some c => c.apply rs
  (result, l1)

/-! ## Converter registry and tokenizer/dispatcher -/

/-- The builtin registry keys, in the module's insertion order (the order
the combined-token regex alternation tries them in). -/
def converters_keys : List Str :=
  ["@str".data, "@int".data, "@float".data, "@bool".data, "@json".data,
   "@format".data, "@jinja".data, "@reset".data, "@del".data, "@merge".data,
   "@merge_unique".data, "@note".data, "@comment".data, "@null".data,
   "@none".data, "@empty".data]

/-- `data.startswith(tuple(converters.keys()))`. -/
def startswith_any (keys : List Str) (s : Str) : Bool :=
  keys.any (fun k => strStarts k s)

/-- Worker for the combined-token test: try each registry key in
alternation order; for a key that matches, the regex then requires a space
and `@jinja` or `@format` (in that alternation order).  There is no
trailing word boundary in the pattern, faithfully to the source regex. -/
def combTokenGo (s : Str) : List Str → Option (Str × Str)
  | [] => Option.none
  | k :: tl =>
    if strStarts (k ++ ' ' :: "@jinja".data) s then some (k, "@jinja".data)
    else if strStarts (k ++ ' ' :: "@format".data) s then some (k, "@format".data)
    else combTokenGo s tl

/-- Model of `re.match(f"^({'|'.join(converters.keys())}) @(jinja|format)", data)`:
the matched key and the second token, when the combined header is present. -/
def comb_token_match (s : Str) : Option (Str × Str) :=
  combTokenGo s converters_keys

/-- The non-`Lazy` branch of the `@bool` converter:
`str(value).lower() in true_values`. -/
def bool_converter (v : PyVal) : PyVal :=
  .bool (strMem (pyLower (pyStr v)) true_values)

/-- Split a string at the first occurrence of a character (used for the
`k, v = match.strip().split("=")` unpacking; the `KV_PATTERN` matches
contain exactly one `=`, so splitting at the first one is exact). -/
def partitionChar (sep : Char) : Str → Str × Str
  | [] => ([], [])
  | c :: tl =>
    if c = sep then ([], tl)
    else
      let p := partitionChar sep tl
      (c :: p.1, p.2)

/-- Lift a list of strings to a `PyList` of `str` values
(`self.value.split(",")`). -/
def strs_to_pylist : List Str → PyList
  | [] => .nil
  | s :: tl => .cons (.str s) (strs_to_pylist tl)

/-- Model of wrapping a resulting mapping in `DynaBox`.  `DynaBox` is a
`dict` subclass container (its source lives outside `src/`); its equality
with plain mappings is item-wise, so the model is the identity. -/
def dynabox_wrap (v : PyVal) : PyVal := v

/-- Fueled worker for `replaceWith`. -/
def replaceWithGo (pat rep : Str) : Nat → Str → Str
  | 0, s => s
  | _ + 1, [] => []
  | f + 1, c :: tl =>
    match dropPre pat (c :: tl) with
    | some rest => rep ++ replaceWithGo pat rep f rest
    | Option.none => c :: replaceWithGo pat rep f tl

/-- Model of Python `str.replace(pat, rep)` for a nonempty `pat`. -/
def replaceWith (s pat rep : Str) : Str :=
  replaceWithGo pat rep (s.length + 1) s

/-- Modelled from the spec: `multi_replace` (in `dynaconf.utils`, whose
source is not under `src/`) substitutes the Python spellings
`: True`/`:True`/`: False`/`:False`/`: None`/`:None` with their JSON
equivalents before embedded-object extraction. -/
def multi_replace (s : Str) : Str :=
  let pairs : List (Str × Str) :=
    [(": True".data, ": true".data), (":True".data, ": true".data),
     (": False".data, ": false".data), (":False".data, ": false".data),
     (": None".data, ": null".data), (":None".data, ": null".data)]
  pairs.foldl (fun acc p => replaceWith acc p.1 p.2) s

/-- Fueled worker for `extract_json_objects`. -/
def extractJsonGo : Nat → Str → List PyVal
  | 0, _ => []
  | _ + 1, [] => []
  | f + 1, c :: tl =>
    if c = '\x7b' then
      match jParseVal (2 * (c :: tl).length + 4) (c :: tl) with
      | some (v, rest) => v :: extractJsonGo f rest
      | Option.none => extractJsonGo f tl
    else extractJsonGo f tl

/-- Modelled from the spec: `extract_json_objects` (in `dynaconf.utils`,
whose source is not under `src/`) scans the text for embedded structured
literals; at each `\x7b` it attempts a `raw_decode`, yields the decoded
object and continues after it, or advances one character on failure. -/
def extract_json_objects (s : Str) : List PyVal :=
  extractJsonGo (s.length + 1) s

/-- The `[a-zA-Z0-9 ]` class on the key side of `KV_PATTERN`. -/
def kvAlpha (c : Char) : Bool := c.isAlpha || c.isDigit || c = ' '

/-- The `[a-zA-Z0-9\- :]` class on the value side of `KV_PATTERN`. -/
def kvBeta (c : Char) : Bool :=
  c.isAlpha || c.isDigit || c = '-' || c = ' ' || c = ':'

/-- Fueled worker for `kv_findall`: at each position, greedily span the key
class, require `=`, then greedily span the value class (the classes exclude
`=`, so regex backtracking can never succeed where the greedy spans fail);
on failure advance one character, on success continue after the match. -/
def kvFindallGo : Nat → Str → List Str
  | 0, _ => []
  | _ + 1, [] => []
  | f + 1, c :: tl =>
    let a := (c :: tl).takeWhile kvAlpha
    match (c :: tl).dropWhile kvAlpha with
    | '=' :: r2 =>
      (a ++ '=' :: r2.takeWhile kvBeta) :: kvFindallGo f (r2.dropWhile kvBeta)
    | _ => kvFindallGo f tl

/-- Model of `KV_PATTERN.findall(value)` for
`KV_PATTERN = ([a-zA-Z0-9 ]*=[a-zA-Z0-9\- :]*)`. -/
def kv_findall (s : Str) : List Str := kvFindallGo (s.length + 1) s

mutual

/-- Model of `parse_conf_data(data, tomlfy, box_settings)`: sequences and
mappings are walked recursively (preserving order); scalars go to the
tokenizer/dispatcher.  The named-tuple passthrough has no counterpart in
the model (no `PyVal` is a named tuple).  `castenabled` is the resolved
`AUTO_CAST_FOR_DYNACONF` toggle (from `box_settings` or the environment). -/
def parse_conf_data : Nat → PyVal → Bool → Bool → Except PyErr PyVal
  | 0, _, _, _ => .error .fuelExhausted
  | f + 1, d, tomlfy, castenabled =>
    match d with
    | .list xs =>
      (match parse_list f xs tomlfy castenabled with
      | .ok xs' => .ok (.list xs')
      | .error e => .error e)
    | .dict kvs =>
      (match parse_dict f kvs tomlfy castenabled with
      | .ok kvs' => .ok (.dict kvs')
      | .error e => .error e)
    | other => _parse_conf_data f other tomlfy castenabled

/-- Elementwise recursive parse of a sequence, order preserved. -/
def parse_list : Nat → PyList → Bool → Bool → Except PyErr PyList
  | 0, _, _, _ => .error .fuelExhausted
  | _ + 1, .nil, _, _ => .ok .nil
  | f + 1, .cons v tl, tomlfy, castenabled =>
    match parse_conf_data f v tomlfy castenabled with
    | .error e => .error e
    | .ok v' =>
      match parse_list f tl tomlfy castenabled with
      | .error e => .error e
      | .ok tl' => .ok (.cons v' tl')

/-- Valuewise recursive parse of a mapping, keys and order preserved. -/
def parse_dict : Nat → PyDict → Bool → Bool → Except PyErr PyDict
  | 0, _, _, _ => .error .fuelExhausted
  | _ + 1, .nil, _, _ => .ok .nil
  | f + 1, .cons k v tl, tomlfy, castenabled =>
    match parse_conf_data f v tomlfy castenabled with
    | .error e => .error e
    | .ok v' =>
      match parse_dict f tl tomlfy castenabled with
      | .error e => .error e
      | .ok tl' => .ok (.cons k v' tl')

/-- Model of `_parse_conf_data`: when auto-cast is enabled and the data is a
nonempty string starting with a registry key, detect an optional combined
`<token> @format|@jinja` header (deleting every occurrence of the header
from the whole string and stripping the remainder), otherwise split at the
first space; apply the converter keys in reverse order; finally wrap a
mapping result in the container type.  Without a directive, fall through to
the TOML fallback when `tomlfy` is set. -/
def _parse_conf_data : Nat → PyVal → Bool → Bool → Except PyErr PyVal
  | 0, _, _, _ => .error .fuelExhausted
  | f + 1, d, tomlfy, castenabled =>
    let core : Except PyErr PyVal :=
      match d with
      | .str s =>
        if castenabled && !s.isEmpty && startswith_any converters_keys s then
          directive_dispatch f s castenabled
        else
          .ok (if tomlfy then parse_with_toml (.str s) else .str s)
      | other => .ok (if tomlfy then parse_with_toml other else other)
    match core with
    | .error e => .error e
    | .ok v => .ok (dynabox_wrap v)

/-- The directive branch of `_parse_conf_data`: detect an optional
combined `<token> @format|@jinja` header (the payload is then the whole raw
string with every occurrence of the header deleted, stripped), otherwise
split at the first space; then run the converter keys in reverse order. -/
def directive_dispatch : Nat → Str → Bool → Except PyErr PyVal
  | 0, _, _ => .error .fuelExhausted
  | f + 1, s, castenabled =>
    match comb_token_match s with
    | some kf =>
      let tokens := kf.1 ++ ' ' :: kf.2
      let value := pyStrip (replaceAll s tokens)
      apply_converters f ((splitChar ' ' tokens).reverse) (.str value) castenabled
    | Option.none =>
      let p := partitionSpace s
      apply_converters f [p.1] (.str p.2) castenabled

/-- The `for converter_key in converter_key_list[::-1]` loop (the list is
already reversed by the caller). -/
def apply_converters : Nat → List Str → PyVal → Bool → Except PyErr PyVal
  | 0, _, _, _ => .error .fuelExhausted
  | _ + 1, [], v, _ => .ok v
  | f + 1, k :: ks, v, castenabled =>
    match get_converter f k v castenabled with
    | .error e => .error e
    | .ok v' => apply_converters f ks v' castenabled

/-- Model of `get_converter(converter_key, value, box_settings)`: dispatch
on the registry key (`converters[converter_key]` raises `KeyError` on a
missing key); the meta-value constructors receive `box_settings`, the
others are called with the value alone. -/
def get_converter : Nat → Str → PyVal → Bool → Except PyErr PyVal
  | 0, _, _, _ => .error .fuelExhausted
  | f + 1, key, value, castenabled =>
    if key = "@str".data then
      .ok (match value with
        | .lazy l => .lazy (l.set_casting .toStr)
        | v => .str (pyStr v))
    else if key = "@int".data then
      (match value with
      | .lazy l => .ok (.lazy (l.set_casting .toInt))
      | .str s => PyVal.int <$> pyIntOfStr s
      | .int n => .ok (.int n)
      | .bool b => .ok (.int (if b then 1 else 0))
      | _ => .error (.typeError "int() argument".data))
    else if key = "@float".data then
      (match value with
      | .lazy l => .ok (.lazy (l.set_casting .toFloat))
      | .str s => PyVal.float <$> pyFloatOfStr s
      | .float x => .ok (.float x)
      | .int n => .ok (.float (.finite (intChars n ++ ['.', '0'])))
      | .bool b => .ok (.float (.finite (if b then "1.0".data else "0.0".data)))
      | _ => .error (.typeError "float() argument".data))
    else if key = "@bool".data then
      .ok (match value with
        | .lazy l => .lazy (l.set_casting .toBool)
        | v => bool_converter v)
    else if key = "@json".data then
      (match value with
      | .lazy l => .ok (.lazy (l.set_casting .toJson))
      | .str s => json_loads s
      | _ => .error (.typeError "the JSON object must be str".data))
    else if key = "@format".data then
      (match value with
      | .str s => .ok (.lazy ⟨s, .format, Option.none, Option.none⟩)
      | _ => .error (.unmodelled "@format on a non-string payload".data))
    else if key = "@jinja".data then
      (match value with
      | .str s => .ok (.lazy ⟨s, .jinja, Option.none, Option.none⟩)
      | _ => .error (.unmodelled "@jinja on a non-string payload".data))
    else if key = "@reset".data then
      (match parse_conf_data f value true castenabled with
      | .ok v => .ok (.metaReset v)
      | .error e => .error e)
    else if key = "@del".data then
      (match parse_conf_data f value true castenabled with
      | .ok v => .ok (.metaDel v)
      | .error e => .error e)
    else if key = "@merge".data then
      merge_make f value castenabled false
    else if key = "@merge_unique".data then
      merge_make f value castenabled true
    else if key = "@note".data || key = "@comment".data || key = "@null".data
        || key = "@none".data then
      .ok .none
    else if key = "@empty".data then
      .ok .empty
    else
      .error (.keyError key)

/-- Model of `Merge.__init__`: recursively parse the payload (with
`tomlfy=True`), then normalize it; the wrapper records the `unique` flag. -/
def merge_make : Nat → PyVal → Bool → Bool → Except PyErr PyVal
  | 0, _, _, _ => .error .fuelExhausted
  | f + 1, value, castenabled, unique =>
    match parse_conf_data f value true castenabled with
    | .error e => .error e
    | .ok parsed =>
      match merge_normalize f parsed castenabled with
      | .error e => .error e
      | .ok norm => .ok (.merge norm unique)

/-- The normalization cascade in `Merge.__init__` after the recursive
parse: scalars become singleton lists; strings try, in order, a single
embedded JSON object (after `multi_replace`), the `KV_PATTERN` mapping
grammar (each value recursively parsed), a comma split, and finally a
singleton list; every other value (mappings, sequences, but also `None`,
the `empty` sentinel and `Lazy` values) is stored unchanged. -/
def merge_normalize : Nat → PyVal → Bool → Except PyErr PyVal
  | 0, _, _ => .error .fuelExhausted
  | f + 1, v, castenabled =>
    match v with
    | .int n => .ok (.list (.cons (.int n) .nil))
    | .float x => .ok (.list (.cons (.float x) .nil))
    | .bool b => .ok (.list (.cons (.bool b) .nil))
    | .str s =>
      let objs := extract_json_objects (multi_replace s)
      if objs.length == 1 then
        .ok (objs.headD .none)
      else
        let ms := kv_findall s
        if !ms.isEmpty then
          (match kv_parse f ms castenabled with
          | .ok kvs => .ok (.dict kvs)
          | .error e => .error e)
        else if s.contains ',' then
          .ok (.list (strs_to_pylist (splitChar ',' s)))
        else
          .ok (.list (.cons (.str s) .nil))
    | other => .ok other

/-- The `{k.strip(): parse_conf_data(v, tomlfy=True) for k, v in …}`
comprehension over the `KV_PATTERN` matches. -/
def kv_parse : Nat → List Str → Bool → Except PyErr PyDict
  | 0, _, _ => .error .fuelExhausted
  | _ + 1, [], _ => .ok .nil
  | f + 1, m :: ms, castenabled =>
    let p := partitionChar '=' (pyStrip m)
    match parse_conf_data f (.str p.2) true castenabled with
    | .error e => .error e
    | .ok v =>
      match kv_parse f ms castenabled with
      | .error e => .error e
      | .ok tl => .ok (.cons (pyStrip p.1) v tl)

end

/-! ## Encoder -/

/-- Model of `Lazy._dynaconf_encode` (via `try_to_encode`):
`f"@{self.formatter} {self.value}"`, where `str(formatter)` is its token. -/
def try_to_encode (l : Lazy) : Str :=
  '@' :: (match l.formatter with
    | .format => "format".data
    | .jinja => "jinja".data) ++ ' ' :: l.value

/-- Model of `unparse_conf_data`: booleans, ints, floats render with their
directive; sequences and mappings render as `@json` with `json.dumps`
(whose `TypeError` on unserializable content propagates); `Lazy` values
encode themselves; `None` becomes `"@none "`; everything else (including
plain strings) is returned unchanged. -/
def unparse_conf_data (value : PyVal) : Except PyErr PyVal :=
  match value with
  | .bool b => .ok (.str ("@bool ".data ++ pyStr (.bool b)))
  | .int n => .ok (.str ("@int ".data ++ intChars n))
  | .float x => .ok (.str ("@float ".data ++ pyStr (.float x)))
  | .list xs =>
    (match json_dumps (.list xs) with
    | some js => .ok (.str ("@json ".data ++ js))
    | Option.none => .error (.typeError "not JSON serializable".data))
  | .dict kvs =>
    (match json_dumps (.dict kvs) with
    | some js => .ok (.str ("@json ".data ++ js))
    | Option.none => .error (.typeError "not JSON serializable".data))
  | .lazy l => .ok (.str (try_to_encode l))
  | .none => .ok (.str "@none ".data)
  | other => .ok other

/-! ## Claim-level predicates -/

/-- Is the value a sequence or a mapping? (the shape `Merge.value` is
claimed to always have). -/
def isSeqOrMap : PyVal → Bool
  | .list _ => true
  | .dict _ => true
  | _ => false

/-- Shapes of a parsed merge payload for which the normalization cascade
produces a sequence or mapping: scalar numbers and booleans, strings,
sequences, mappings. -/
def isMergeScalarOrCollection : PyVal → Bool
  | .int _ => true
  | .float _ => true
  | .bool _ => true
  | .str _ => true
  | .list _ => true
  | .dict _ => true
  | _ => false

/-! ## Theorems for the concrete claims -/

/-- Claim C9: an input whose first whitespace-delimited word strictly
extends a registered directive token (here `"@intx 5"`, extending `"@int"`)
makes parsing fail with a registry key-lookup error naming the extended
word, while a string sharing no registered prefix (here `"@zzz 5"`) is
returned unchanged. -/
theorem C9_extended_token_key_lookup :
    parse_conf_data 9 (.str "@intx 5".data) true true
      = .error (.keyError "@intx".data)
    ∧ parse_conf_data 9 (.str "@zzz 5".data) true true
      = .ok (.str "@zzz 5".data) := ⟨rfl, rfl⟩

/-- Claim C2 (counterexample): parsing `"@nope value"` with auto-cast
enabled does not fail with an unknown-directive error; since `"@nope"` does
not begin with any registered token, the dispatcher falls through to the
TOML fallback, which returns the literal string unchanged. -/
theorem C2_counterexample :
    parse_conf_data 9 (.str "@nope value".data) true true
      = .ok (.str "@nope value".data) := rfl

/-- Claim C4: the four `Merge` normalization equations.  `merge_make`
models `Merge.__init__` (recursive parse with `tomlfy=True`, then the
normalization cascade); its stored value is `[1]` for `"1"`,
`["foo", "bar"]` for `"foo,bar"`, `{"a": 1, "b": 2}` (values parsed as
integers) for `"a=1, b=2"`, and the mapping `{"x": true}` for the embedded
JSON object. -/
theorem C4_merge_normalization :
    merge_make 9 (.str "1".data) true false
      = .ok (.merge (.list (pyList [.int 1])) false)
    ∧ merge_make 9 (.str "foo,bar".data) true false
      = .ok (.merge (.list (pyList [.str "foo".data, .str "bar".data])) false)
    ∧ merge_make 9 (.str "a=1, b=2".data) true false
      = .ok (.merge (.dict (pyDict [("a".data, .int 1), ("b".data, .int 2)])) false)
    ∧ merge_make 9 (.str "\x7b\"x\": true\x7d".data) true false
      = .ok (.merge (.dict (pyDict [("x".data, .bool true)])) false) :=
  ⟨rfl, rfl, rfl, rfl⟩

/-- Claim C5 (counterexample): the payload `"@none x"` parses to `None`,
which the normalization cascade stores unchanged, so `Merge.value` is a
bare null — neither a sequence nor a mapping. -/
theorem C5_counterexample :
    merge_make 9 (.str "@none x".data) true false = .ok (.merge PyVal.none false)
    ∧ isSeqOrMap PyVal.none = false := ⟨rfl, rfl⟩

/-- Claim C6 (counterexample): the `@bool` converter lowercases the payload
before testing membership, so `"TRUE"` — which is not among the truthy
tokens with the listed casing — still converts to `true` (also at the
dispatcher level for `"@bool TRUE"`). -/
theorem C6_counterexample :
    bool_converter (.str "TRUE".data) = .bool true
    ∧ strMem "TRUE".data true_values = false
    ∧ parse_conf_data 9 (.str "@bool TRUE".data) true true = .ok (.bool true) :=
  ⟨rfl, rfl, rfl⟩

/-- Claim C3 (counterexample): parsing `"@int @format {{BASE}}0"` does
yield a single Lazy value with the `int` cast attached, but evaluating it
with settings in which `BASE` is `"4"` does not produce `40`: `str.format`
renders the doubled braces as literal braces, so the cast receives the
string `"{BASE}0"` and raises `ValueError`. -/
theorem C3_counterexample :
    parse_conf_data 9 (.str "@int @format \x7b\x7bBASE\x7d\x7d0".data) true true
      = .ok (.lazy ⟨"\x7b\x7bBASE\x7d\x7d0".data, .format, some .toInt, Option.none⟩)
    ∧ (Lazy.call ⟨"\x7b\x7bBASE\x7d\x7d0".data, .format, some .toInt, Option.none⟩
        [] [("BASE".data, "4".data)] Option.none).1
      = .error (.valueError "\x7bBASE\x7d0".data) := ⟨rfl, rfl⟩

/-- Claim C3 (amended): parsing `"@int @format {{BASE}}0"` yields a single
Lazy value (the converters run in reverse token order: `@format` first
creates the Lazy, then `@int` attaches itself as its post-render cast), but
evaluating that Lazy raises `ValueError` because `str.format` escapes the
doubled braces to a literal `"{BASE}0"`; with the single-brace
`str.format` placeholder — `"@int @format {this[BASE]}0"` — and settings in
which `BASE` resolves to `"4"`, evaluation yields the integer `40`. -/
theorem C3_amended :
    parse_conf_data 9 (.str "@int @format \x7b\x7bBASE\x7d\x7d0".data) true true
      = .ok (.lazy ⟨"\x7b\x7bBASE\x7d\x7d0".data, .format, some .toInt, Option.none⟩)
    ∧ (Lazy.call ⟨"\x7b\x7bBASE\x7d\x7d0".data, .format, some .toInt, Option.none⟩
        [] [("BASE".data, "4".data)] Option.none).1
      = .error (.valueError "\x7bBASE\x7d0".data)
    ∧ parse_conf_data 9 (.str "@int @format \x7bthis[BASE]\x7d0".data) true true
      = .ok (.lazy ⟨"\x7bthis[BASE]\x7d0".data, .format, some .toInt, Option.none⟩)
    ∧ (Lazy.call ⟨"\x7bthis[BASE]\x7d0".data, .format, some .toInt, Option.none⟩
        [] [("BASE".data, "4".data)] Option.none).1 = .ok (.int 40) :=
  ⟨rfl, rfl, rfl, rfl⟩

/-- Claim C7: the divergence between the evaluation contract and the code.
`Lazy.__call__` assigns the validator reference into the fresh dict
returned by the `context` property and discards it, so (first conjunct) the
evaluation result never depends on the supplied validator object, and
(second conjunct) a template referencing `_validator_object` fails with
`KeyError` even when a validator object is supplied. -/
theorem C7_validator_object_dropped :
    (∀ (l : Lazy) (env settings : List (Str × Str)) (v₁ v₂ : Option Str),
      (Lazy.call l env settings v₁).1 = (Lazy.call l env settings v₂).1)
    ∧ (Lazy.call ⟨"\x7b_validator_object\x7d".data, .format, Option.none, Option.none⟩
        [] [] (some "validator".data)).1
      = .error (.keyError "_validator_object".data) :=
  ⟨fun _ _ _ _ _ => rfl, rfl⟩

/-- Claim C8 (counterexample): evaluating a Lazy value does not leave every
field unchanged — `__call__` executes `self.settings = settings`, so the
instance after the call differs from the instance before it. -/
theorem C8_counterexample :
    (Lazy.call ⟨"x".data, .format, Option.none, Option.none⟩
        [] [("A".data, "b".data)] Option.none).2
      ≠ (⟨"x".data, .format, Option.none, Option.none⟩ : Lazy) := by
  intro h
  have h2 := congrArg Lazy.settings h
  exact Option.noConfusion h2

/-- Claim C8 (amended): evaluation leaves the template, the formatter and
the casting unchanged but stores the supplied settings on the instance
(mutating its `settings` attribute on every call); and `set_casting` is
unrestricted — it overwrites the casting at any time, leaving the other
fields unchanged (the code does not enforce set-at-most-once, nor forbid
mutation after evaluation). -/
theorem C8_call_mutates_only_settings :
    (∀ (l : Lazy) (env settings : List (Str × Str)) (v : Option Str),
      (Lazy.call l env settings v).2.value = l.value
      ∧ (Lazy.call l env settings v).2.formatter = l.formatter
      ∧ (Lazy.call l env settings v).2.casting = l.casting
      ∧ (Lazy.call l env settings v).2.settings = some settings)
    ∧ (∀ (l : Lazy) (c : Casting),
      (Lazy.set_casting l c).casting = some c
      ∧ (Lazy.set_casting l c).value = l.value
      ∧ (Lazy.set_casting l c).formatter = l.formatter
      ∧ (Lazy.set_casting l c).settings = l.settings) :=
  ⟨fun _ _ _ _ => ⟨rfl, rfl, rfl, rfl⟩, fun _ _ => ⟨rfl, rfl, rfl, rfl⟩⟩

/-- Claim C1 (counterexample): the round trip fails at `nan`: the encoder
produces `"@float nan"`, parsing gives back a `nan` float, but under
Python equality `nan != nan`, so `parse(encode(v)) == v` is false at
`v = nan`. -/
theorem C1_counterexample :
    unparse_conf_data (.float .nan) = .ok (.str "@float nan".data)
    ∧ parse_conf_data 9 (.str "@float nan".data) true true = .ok (.float .nan)
    ∧ pyEq (.float .nan) (.float .nan) = false := ⟨rfl, rfl, rfl⟩

/-! ## Claim C6 (amended): `@bool` is case-insensitive -/

theorem lowerChar_ne_T (c : Char) : lowerChar c ≠ 'T' := by
  unfold lowerChar Char.toLower
  by_cases hc : c.toNat ≥ 65 ∧ c.toNat ≤ 90
  · rw [if_pos hc]
    intro h
    have h2 := congrArg Char.toNat h
    rw [toNat_ofNat_valid _ (Or.inl (by omega))] at h2
    have : Char.toNat 'T' = 84 := by decide
    omega
  · rw [if_neg hc]
    intro h
    subst h
    exact hc (by decide)

/-- A lowercased payload can never be the spelling `"True"`. -/
theorem pyLower_ne_True (s : Str) : (pyLower s == ['T', 'r', 'u', 'e']) = false := by
  rw [beq_eq_false_iff_ne]
  intro h
  cases s with
  | nil => simp [pyLower] at h
  | cons c tl =>
    rw [pyLower, List.map_cons] at h
    have hc : lowerChar c = 'T' := (List.cons.injEq _ _ _ _ ▸ h).1
    exact lowerChar_ne_T c hc

/-- Claim C6 (amended): for every payload string, the `@bool` converter
(non-`Lazy` branch) returns true exactly when the lowercased payload is one
of `t`, `true`, `enabled`, `1`, `on`, `yes` — the matching is
case-insensitive (the payload is lowercased first), and the listed spelling
`True` is unreachable dead weight in the truthy tuple, since a lowercased
string never equals it. -/
theorem C6_bool_lowercases_payload : ∀ s : Str,
    bool_converter (.str s)
      = .bool (strMem (pyLower s)
          ["t".data, "true".data, "enabled".data, "1".data, "on".data, "yes".data]) := by
  intro s
  unfold bool_converter
  rw [show pyStr (.str s) = s from rfl]
  have h7 : strMem (pyLower s) true_values
      = strMem (pyLower s)
          ["t".data, "true".data, "enabled".data, "1".data, "on".data, "yes".data] := by
    simp only [true_values, strMem, pyLower_ne_True, Bool.false_or, Bool.or_false]
  rw [h7]

/-! ## Claim C2 (amended): no shared registered prefix means literal fallback -/

/-- Stripping a string that starts with a non-whitespace character yields
either the empty string or a string with the same head. -/
theorem pyStrip_head (c : Char) (tl : Str) (hc : isPyWs c = false) :
    pyStrip (c :: tl) = [] ∨ ∃ tl', pyStrip (c :: tl) = c :: tl' := by
  unfold pyStrip
  rw [List.dropWhile_cons, hc]
  simp only [Bool.false_eq_true, if_false]
  obtain ⟨t, ht⟩ := List.dropWhile_suffix (l := (c :: tl).reverse) isPyWs
  have hrev : ((c :: tl).reverse.dropWhile isPyWs).reverse ++ t.reverse = c :: tl := by
    have h2 := congrArg List.reverse ht
    simpa [List.reverse_append] using h2
  cases hdr : ((c :: tl).reverse.dropWhile isPyWs).reverse with
  | nil => exact Or.inl rfl
  | cons x xs =>
    right
    rw [hdr] at hrev
    have hx : x = c := by
      have h3 := congrArg (List.head? ·) hrev
      simpa using h3
    exact ⟨xs, by rw [hx]⟩

/-- The TOML fallback declines any value text that begins with `@`. -/
theorem toml_scalar_at_sign (tl : Str) : toml_scalar ('@' :: tl) = Option.none := by
  unfold toml_scalar
  rcases pyStrip_head '@' tl rfl with h | ⟨tl', h⟩ <;> rw [h] <;> rfl

/-- Claim C2 (amended): a raw string whose leading word begins with `@` but
that does not begin with any registered token (such as `"@nope value"`) is
not an unknown-directive error: the dispatcher falls through, the TOML
fallback declines the `@`-prefixed text, and parsing returns the literal
string unchanged.  (A registry key-lookup error occurs only when the first
word strictly extends a registered token, cf. `"@intx 5"`.) -/
theorem C2_amended (f : Nat) (tomlfy : Bool) (tl : Str)
    (hsw : startswith_any converters_keys ('@' :: tl) = false) :
    parse_conf_data (f + 2) (.str ('@' :: tl)) tomlfy true
      = .ok (.str ('@' :: tl)) := by
  have h1 : parse_conf_data (f + 2) (.str ('@' :: tl)) tomlfy true
      = _parse_conf_data (f + 1) (.str ('@' :: tl)) tomlfy true := rfl
  rw [h1]
  simp only [_parse_conf_data]
  rw [show (('@' :: tl : Str).isEmpty) = false from rfl, hsw]
  simp only [Bool.not_false, Bool.and_true, Bool.true_and, Bool.and_false,
    Bool.false_eq_true, if_false]
  cases tomlfy with
  | false => rfl
  | true =>
    simp only [parse_with_toml, toml_scalar_at_sign, Option.getD]
    rfl

/-- Witness for `C2_amended` at the claim's own example input. -/
theorem C2_amended_witness :
    startswith_any converters_keys ("@nope value".data) = false
    ∧ parse_conf_data 2 (.str "@nope value".data) true true
      = .ok (.str "@nope value".data) :=
  ⟨rfl, C2_amended 0 true ("nope value".data) rfl⟩

/-! ## Claim C5 (amended): when `Merge.value` is a sequence or mapping -/

/-- A successful decode starting at an opening brace always yields a
mapping. -/
theorem jParseVal_brace_dict (g : Nat) (tl : Str) (v : PyVal) (r : Str)
    (h : jParseVal g ('\x7b' :: tl) = some (v, r)) : ∃ kvs, v = .dict kvs := by
  cases g with
  | zero => exact absurd h (by simp [jParseVal])
  | succ g' =>
    have hdef : jParseVal (g' + 1) ('\x7b' :: tl)
        = (if headIs '\x7d' (jSkipWs tl) then
            some (.dict .nil, (jSkipWs tl).drop 1)
          else
            match jParsePairs g' (jSkipWs tl) with
            | some (kvs, r2) => some (.dict kvs, r2)
            | Option.none => Option.none) := rfl
    rw [hdef] at h
    by_cases hb : headIs '\x7d' (jSkipWs tl)
    · rw [if_pos hb] at h
      simp only [Option.some.injEq, Prod.mk.injEq] at h
      exact ⟨.nil, h.1.symm⟩
    · rw [if_neg (by simp [hb])] at h
      rcases hp : jParsePairs g' (jSkipWs tl) with _ | ⟨kvs, r2⟩
      · rw [hp] at h
        exact absurd h (by simp)
      · rw [hp] at h
        simp only [Option.some.injEq, Prod.mk.injEq] at h
        exact ⟨kvs, h.1.symm⟩

/-- Every object yielded by the embedded-literal extraction is a mapping
(the scan only attempts decodes at opening braces). -/
theorem extract_json_objects_dicts (s : Str) :
    ∀ v ∈ extract_json_objects s, ∃ kvs, v = .dict kvs := by
  unfold extract_json_objects
  generalize (s.length + 1) = g
  induction g generalizing s with
  | zero =>
    intro v hv
    simp [extractJsonGo] at hv
  | succ g' ih =>
    intro v hv
    cases s with
    | nil => simp [extractJsonGo] at hv
    | cons c tl =>
      simp only [extractJsonGo] at hv
      by_cases hc : c = '\x7b'
      · rw [if_pos hc] at hv
        subst hc
        rcases hp : jParseVal (2 * (('\x7b' :: tl : Str)).length + 4) ('\x7b' :: tl)
            with _ | ⟨w, rest⟩
        · rw [hp] at hv
          exact ih _ v hv
        · rw [hp] at hv
          rcases List.mem_cons.mp hv with h | h
          · subst h
            exact jParseVal_brace_dict _ _ _ _ hp
          · exact ih _ v h
      · rw [if_neg hc] at hv
        exact ih _ v hv

/-- Claim C5 (amended): after `Merge` normalization, the stored value is a
sequence or a mapping whenever the recursively parsed payload is a scalar
number, a boolean, a string, a sequence or a mapping.  (Payloads that parse
to `None`, the `empty` sentinel, `Lazy` values or nested meta wrappers are
stored unchanged and may be bare — cf. the counterexample.) -/
theorem C5_merge_value_shape (f : Nat) (parsed : PyVal) (castenabled : Bool) (r : PyVal)
    (hshape : isMergeScalarOrCollection parsed = true)
    (hok : merge_normalize (f + 1) parsed castenabled = .ok r) :
    isSeqOrMap r = true := by
  cases parsed with
  | int n =>
    simp only [merge_normalize, Except.ok.injEq] at hok
    rw [← hok]
    rfl
  | float x =>
    simp only [merge_normalize, Except.ok.injEq] at hok
    rw [← hok]
    rfl
  | bool b =>
    simp only [merge_normalize, Except.ok.injEq] at hok
    rw [← hok]
    rfl
  | list xs =>
    simp only [merge_normalize, Except.ok.injEq] at hok
    rw [← hok]
    rfl
  | dict kvs =>
    simp only [merge_normalize, Except.ok.injEq] at hok
    rw [← hok]
    rfl
  | str s =>
    simp only [merge_normalize] at hok
    by_cases hobj : ((extract_json_objects (multi_replace s)).length == 1) = true
    · rw [if_pos hobj] at hok
      have hlen : (extract_json_objects (multi_replace s)).length = 1 := by
        exact Nat.beq_eq ▸ of_decide_eq_true (by simpa using hobj)
      obtain ⟨o, ho⟩ := List.length_eq_one.mp hlen
      rw [ho] at hok
      simp only [List.headD, Except.ok.injEq] at hok
      obtain ⟨kvs, hkvs⟩ := extract_json_objects_dicts (multi_replace s) o
        (by rw [ho]; exact List.mem_singleton.mpr rfl)
      rw [← hok, hkvs]
      rfl
    · rw [if_neg hobj] at hok
      by_cases hkv : (!(kv_findall s).isEmpty) = true
      · rw [if_pos hkv] at hok
        rcases hp : kv_parse f (kv_findall s) castenabled with e | kvs
        · rw [hp] at hok
          exact absurd hok (by simp)
        · rw [hp] at hok
          simp only [Except.ok.injEq] at hok
          rw [← hok]
          rfl
      · rw [if_neg hkv] at hok
        by_cases hcm : (s.contains ',') = true
        · rw [if_pos hcm] at hok
          simp only [Except.ok.injEq] at hok
          rw [← hok]
          rfl
        · rw [if_neg hcm] at hok
          simp only [Except.ok.injEq] at hok
          rw [← hok]
          rfl
  | none => exact absurd hshape (by decide)
  | empty => exact absurd hshape (by decide)
  | lazy l => exact absurd hshape (by simp [isMergeScalarOrCollection])
  | metaReset v => exact absurd hshape (by simp [isMergeScalarOrCollection])
  | metaDel v => exact absurd hshape (by simp [isMergeScalarOrCollection])
  | merge v u => exact absurd hshape (by simp [isMergeScalarOrCollection])

/-- Witness for `C5_merge_value_shape` at a concrete payload. -/
theorem C5_merge_value_shape_witness :
    isMergeScalarOrCollection (.str "foo,bar".data) = true
    ∧ merge_normalize 2 (.str "foo,bar".data) true
      = .ok (.list (pyList [.str "foo".data, .str "bar".data]))
    ∧ isSeqOrMap (.list (pyList [.str "foo".data, .str "bar".data])) = true :=
  ⟨rfl, rfl, C5_merge_value_shape 1 (.str "foo,bar".data) true
    (.list (pyList [.str "foo".data, .str "bar".data])) rfl rfl⟩

/-! ## Claim C10: combined-header deletion from the whole raw string -/

theorem dropPre_append (p r : Str) : dropPre p (p ++ r) = some r := by
  induction p with
  | nil => rfl
  | cons c tl ih => simp [dropPre, ih]

theorem dropPre_none_of_head (p' tl : Str) (c : Char) (hc : c ≠ '@') :
    dropPre ('@' :: p') (c :: tl) = Option.none := by
  simp only [dropPre]
  rw [if_neg (fun h => hc h.symm)]

theorem replaceAllGo_skip (pat : Str) (f : Nat) (c : Char) (tl : Str)
    (h : dropPre pat (c :: tl) = Option.none) :
    replaceAllGo pat (f + 1) (c :: tl) = c :: replaceAllGo pat f tl := by
  simp only [replaceAllGo, h]

theorem replaceAllGo_match (pat : Str) (f : Nat) (c : Char) (tl rest : Str)
    (h : dropPre pat (c :: tl) = some rest) :
    replaceAllGo pat (f + 1) (c :: tl) = replaceAllGo pat f rest := by
  simp only [replaceAllGo, h]

/-- The deletion scan passes over a string containing no `@` (no occurrence
of an `@`-headed pattern can start there). -/
theorem replaceAllGo_free (p' : Str) : ∀ (f : Nat) (s : Str),
    (∀ c ∈ s, c ≠ '@') → s.length < f → replaceAllGo ('@' :: p') f s = s := by
  intro f
  induction f with
  | zero => intro s _ h; omega
  | succ f ih =>
    intro s hs hlen
    cases s with
    | nil => rfl
    | cons c tl =>
      rw [replaceAllGo_skip _ _ _ _ (dropPre_none_of_head _ _ _ (hs c (by simp)))]
      rw [ih tl (fun d hd => hs d (by simp [hd])) (by simp at hlen; omega)]

/-- Deleting an `@`-headed header from `m ++ hdr ++ e` where `m` and `e`
are `@`-free removes exactly the embedded occurrence. -/
theorem replaceAllGo_mid (p' : Str) : ∀ (m : Str) (f : Nat) (e : Str),
    (∀ c ∈ m, c ≠ '@') → (∀ c ∈ e, c ≠ '@') →
    m.length + (p'.length + 1) + e.length < f →
    replaceAllGo ('@' :: p') f (m ++ ('@' :: p') ++ e) = m ++ e := by
  intro m
  induction m with
  | nil =>
    intro f e _ he hlen
    cases f with
    | zero => omega
    | succ f =>
      simp only [List.nil_append]
      rw [show (('@' :: p') ++ e : Str) = '@' :: (p' ++ e) from rfl,
        replaceAllGo_match ('@' :: p') f '@' (p' ++ e) e
          (show dropPre ('@' :: p') ('@' :: (p' ++ e)) = some e from dropPre_append ('@' :: p') e)]
      exact replaceAllGo_free p' f e he (by simp at hlen; omega)
  | cons c m' ih =>
    intro f e hm he hlen
    cases f with
    | zero => omega
    | succ f =>
      simp only [List.cons_append]
      rw [replaceAllGo_skip _ _ _ _ (dropPre_none_of_head _ _ _ (hm c (by simp)))]
      rw [show (m' ++ '@' :: p' ++ e : Str) = m' ++ ('@' :: p') ++ e by simp]
      rw [ih f e (fun d hd => hm d (by simp [hd])) he (by simp at hlen ⊢; omega)]

/-- `data.replace(header, "")` on `header ++ m ++ header ++ e` with
`@`-free `m`, `e` yields `m ++ e`. -/
theorem replaceAll_two_headers (p' m e : Str)
    (hm : ∀ c ∈ m, c ≠ '@') (he : ∀ c ∈ e, c ≠ '@') :
    replaceAll (('@' :: p') ++ m ++ ('@' :: p') ++ e) ('@' :: p') = m ++ e := by
  unfold replaceAll
  generalize hlen : (('@' :: p') ++ m ++ ('@' :: p') ++ e : Str).length + 1 = f
  cases f with
  | zero => simp at hlen
  | succ f =>
    rw [show (('@' :: p') ++ m ++ ('@' :: p') ++ e : Str)
        = '@' :: (p' ++ (m ++ ('@' :: p') ++ e)) by simp]
    rw [replaceAllGo_match ('@' :: p') f '@' (p' ++ (m ++ ('@' :: p') ++ e))
        (m ++ ('@' :: p') ++ e)
        (show dropPre ('@' :: p') ('@' :: (p' ++ (m ++ ('@' :: p') ++ e)))
            = some (m ++ ('@' :: p') ++ e) from dropPre_append ('@' :: p') _)]
    apply replaceAllGo_mid p' m f e hm he
    simp [List.length_append] at hlen ⊢
    omega

/-- Claim C10: when the combined two-token header is detected, the payload
is `data.replace(header, "").strip()` — every occurrence of the header
substring in the whole raw string is deleted, including occurrences inside
the payload itself.  For `@`-free `s₁`, `s₂`, parsing
`"@int @format " ++ s₁ ++ "@int @format" ++ s₂` yields a Lazy whose
template is `strip(" " ++ s₁ ++ s₂)`: the interior header occurrence is
gone before conversion. -/
theorem C10_header_deleted (f : Nat) (tomlfy : Bool) (s₁ s₂ : Str)
    (h1 : ∀ c ∈ s₁, c ≠ '@') (h2 : ∀ c ∈ s₂, c ≠ '@') :
    parse_conf_data (f + 6)
      (.str ("@int @format ".data ++ s₁ ++ "@int @format".data ++ s₂)) tomlfy true
      = .ok (.lazy ⟨pyStrip ((' ' :: s₁) ++ s₂), .format, some .toInt, Option.none⟩) := by
  have hdata : ("@int @format ".data ++ s₁ ++ "@int @format".data ++ s₂ : Str)
      = ('@' :: "int @format".data) ++ (' ' :: s₁) ++ ('@' :: "int @format".data) ++ s₂ := by
    simp
  have hrepl : replaceAll ("@int @format ".data ++ s₁ ++ "@int @format".data ++ s₂)
      ('@' :: "int @format".data) = (' ' :: s₁) ++ s₂ := by
    rw [hdata]
    exact replaceAll_two_headers _ _ _
      (by
        intro c hc
        rcases List.mem_cons.mp hc with h | h
        · subst h; decide
        · exact h1 c h)
      h2
  have hstep : parse_conf_data (f + 6)
      (.str ("@int @format ".data ++ s₁ ++ "@int @format".data ++ s₂)) tomlfy true
      = (match apply_converters (f + 3) ["@format".data, "@int".data]
          (.str (pyStrip (replaceAll
            ("@int @format ".data ++ s₁ ++ "@int @format".data ++ s₂)
            ('@' :: "int @format".data)))) true with
        | .error e => .error e
        | .ok v => .ok (dynabox_wrap v)) := rfl
  rw [hstep, hrepl]
  rfl

/-- Witness for `C10_header_deleted`: with payload pieces `"4"` and `"0"`,
the interior `"@int @format"` occurrence is deleted and the Lazy template
is `"40"`. -/
theorem C10_header_deleted_witness :
    parse_conf_data 6 (.str "@int @format 4@int @format0".data) true true
      = .ok (.lazy ⟨"40".data, .format, some .toInt, Option.none⟩) :=
  C10_header_deleted 0 true ("4".data) ("0".data) (by decide) (by decide)

/-! ## Claim C1: infrastructure -/

mutual
/-- JSON-serializable, well-formed values (the content `@json`-encoded
containers may hold): scalars, strings, and nested containers; finite
floats must carry a well-formed canonical repr. -/
def jsonOk : PyVal → Bool
  | .none => true
  | .bool _ => true
  | .int _ => true
  | .float x => pyFloatWf x
  | .str _ => true
  | .list xs => jsonOkL xs
  | .dict kvs => jsonOkD kvs
  | _ => false
/-- `jsonOk` on lists. -/
def jsonOkL : PyList → Bool
  | .nil => true
  | .cons v tl => jsonOk v && jsonOkL tl
/-- `jsonOk` on dicts. -/
def jsonOkD : PyDict → Bool
  | .nil => true
  | .cons _ v tl => jsonOk v && jsonOkD tl
end

mutual
/-- No `nan` occurs anywhere in the value. -/
def noNaN : PyVal → Bool
  | .float .nan => false
  | .list xs => noNaNL xs
  | .dict kvs => noNaND kvs
  | _ => true
/-- `noNaN` on lists. -/
def noNaNL : PyList → Bool
  | .nil => true
  | .cons v tl => noNaN v && noNaNL tl
/-- `noNaN` on dicts. -/
def noNaND : PyDict → Bool
  | .nil => true
  | .cons _ v tl => noNaN v && noNaND tl
end

/-- The top-level value shapes the round-trip claim ranges over: booleans,
integers, floats, sequences, mappings and null (strings are excluded by the
claim — the encoder returns them unchanged and the TOML fallback may
reinterpret them). -/
def roundTrippable : PyVal → Bool
  | .bool _ => true
  | .int _ => true
  | .none => true
  | .float x => pyFloatWf x
  | .list xs => jsonOkL xs
  | .dict kvs => jsonOkD kvs
  | _ => false

mutual
/-- Fuel bound for the JSON value scanner on the output of `json_dumps`. -/
def jsonSize : PyVal → Nat
  | .list xs => 1 + jsonSizeL xs
  | .dict kvs => 1 + jsonSizeD kvs
  | _ => 1
/-- Fuel bound for `jParseItems`. -/
def jsonSizeL : PyList → Nat
  | .nil => 0
  | .cons v tl => 1 + jsonSize v + jsonSizeL tl
/-- Fuel bound for `jParsePairs`. -/
def jsonSizeD : PyDict → Nat
  | .nil => 0
  | .cons _ v tl => 1 + jsonSize v + jsonSizeD tl
end

/-- Characters that cannot extend a JSON number token to its left-neighbour
phase: after a complete token, a rest starting with one of the structural
characters (or exhausted input) leaves the scan unchanged. -/
def numBoundary : Str → Bool
  | [] => true
  | c :: _ => !(isDigitChar c) && !(c = '.') && !(c = 'e') && !(c = 'E')

/-- The rests the inversion lemma is instantiated with: end of input or a
structural separator. -/
def jsonRestOk : Str → Bool
  | [] => true
  | c :: _ => c = ',' || c = ']' || c = '\x7d'

theorem jsonRestOk_numBoundary {r : Str} (h : jsonRestOk r = true) :
    numBoundary r = true := by
  cases r with
  | nil => rfl
  | cons c tl =>
    simp only [jsonRestOk, Bool.or_eq_true, decide_eq_true_eq] at h
    rcases h with (h | h) | h <;> (subst h; rfl)

theorem strStarts_append_self (p r : Str) : strStarts p (p ++ r) = true := by
  induction p with
  | nil => rfl
  | cons c tl ih => simp [strStarts, ih]

theorem takeWhile_append_all {p : Char → Bool} {a : Str} (b : Str)
    (h : ∀ c ∈ a, p c = true) :
    (a ++ b).takeWhile p = a ++ b.takeWhile p
    ∧ (a ++ b).dropWhile p = b.dropWhile p := by
  induction a with
  | nil => exact ⟨rfl, rfl⟩
  | cons c tl ih =>
    have hc := h c (by simp)
    have ih2 := ih (fun d hd => h d (by simp [hd]))
    constructor
    · simp [List.takeWhile_cons, hc, ih2.1]
    · simp [List.dropWhile_cons, hc, ih2.2]

theorem takeWhile_head_false {p : Char → Bool} {b : Str}
    (h : ∀ c, b.head? = some c → p c = false) :
    b.takeWhile p = [] ∧ b.dropWhile p = b := by
  cases b with
  | nil => exact ⟨rfl, rfl⟩
  | cons c tl =>
    have hc := h c rfl
    constructor
    · simp [List.takeWhile_cons, hc]
    · simp [List.dropWhile_cons, hc]

/-- `jSkipWs` does not touch a string whose head is not JSON whitespace. -/
theorem jSkipWs_no_ws {s : Str}
    (h : ∀ c, s.head? = some c → (c = ' ' || c = '\t' || c = '\n' || c = '\r') = false) :
    jSkipWs s = s := by
  unfold jSkipWs
  cases s with
  | nil => rfl
  | cons c tl => simp [List.dropWhile_cons, h c rfl]

theorem jHexVal_hexDigit {d : Nat} (h : d < 16) : jHexVal (hexDigit d) = some d := by
  interval_cases d <;> decide

/-- The four-nibble decomposition recombines. -/
theorem hex4_decode (n : Nat) (h : n < 65536) :
    (n / 4096 % 16) * 4096 + (n / 256 % 16) * 256 + (n / 16 % 16) * 16 + n % 16 = n := by
  omega

/-- Unicode scalar range of every Lean `Char` (mirrors `Char.valid`). -/
theorem char_valid_ranges (c : Char) :
    c.toNat < 55296 ∨ (57343 < c.toNat ∧ c.toNat < 1114112) := c.valid

theorem jUnits_plain (c : Char) (tl : Str) (h1 : ¬(c = '"')) (h2 : ¬(c = '\\'))
    (h3 : ¬(c.toNat < 32)) :
    jUnits (c :: tl)
      = (match jUnits tl with
        | some (us, rest) => some (c.toNat :: us, rest)
        | Option.none => Option.none) := by
  conv_lhs => rw [jUnits.eq_def]
  simp only []
  rw [if_neg h1, if_neg h2, if_neg h3]

theorem jUnits_short (e : Char) (c2 : Char) (tl : Str)
    (he : ¬(e = 'u')) (hs : escShort e = some c2) :
    jUnits ('\\' :: e :: tl)
      = (match jUnits tl with
        | some (us, rest) => some (c2.toNat :: us, rest)
        | Option.none => Option.none) := by
  conv_lhs => rw [jUnits.eq_def]
  simp only []
  rw [if_neg he, hs]
  cases jUnits tl with
  | none => rfl
  | some p => rfl

theorem jUnits_u (h1 h2 h3 h4 : Char) (a b c1 d : Nat) (tl : Str)
    (e1 : jHexVal h1 = some a) (e2 : jHexVal h2 = some b)
    (e3 : jHexVal h3 = some c1) (e4 : jHexVal h4 = some d) :
    jUnits ('\\' :: 'u' :: h1 :: h2 :: h3 :: h4 :: tl)
      = (match jUnits tl with
        | some (us, rest) => some ((a * 4096 + b * 256 + c1 * 16 + d) :: us, rest)
        | Option.none => Option.none) := by
  conv_lhs => rw [jUnits.eq_def]
  simp only []
  rw [e1, e2, e3, e4]
  cases jUnits tl with
  | none => rfl
  | some p => rfl

theorem jCombine_scalar (u : Nat) (us : List Nat)
    (hhi : ¬(55296 ≤ u ∧ u ≤ 56319)) (hlo : ¬(56320 ≤ u ∧ u ≤ 57343)) :
    jCombine (u :: us)
      = (match jCombine us with
        | some content => some (Char.ofNat u :: content)
        | Option.none => Option.none) := by
  conv_lhs => rw [jCombine.eq_def]
  simp only []
  rw [if_neg hhi, if_neg hlo]

theorem jCombine_pair (u u2 : Nat) (us : List Nat)
    (hhi : 55296 ≤ u ∧ u ≤ 56319) (hlo : 56320 ≤ u2 ∧ u2 ≤ 57343) :
    jCombine (u :: u2 :: us)
      = (match jCombine us with
        | some content => some (Char.ofNat (65536 + (u - 55296) * 1024 + (u2 - 56320)) :: content)
        | Option.none => Option.none) := by
  conv_lhs => rw [jCombine.eq_def]
  simp only []
  rw [if_pos hhi]
  rw [if_pos hlo]

theorem unitsOfChar_small (c : Char) (h : c.toNat < 65536) :
    unitsOfChar c = [c.toNat] := by
  unfold unitsOfChar
  rw [if_pos h]

theorem jUnits_hex4 (n : Nat) (hn : n < 65536) (r : Str) :
    jUnits ('\\' :: 'u' :: (hex4 n ++ r))
      = (match jUnits r with
        | some (us, rest) => some (n :: us, rest)
        | Option.none => Option.none) := by
  show jUnits ('\\' :: 'u' :: hexDigit (n / 4096 % 16) :: hexDigit (n / 256 % 16)
    :: hexDigit (n / 16 % 16) :: hexDigit (n % 16) :: r) = _
  rw [jUnits_u _ _ _ _ _ _ _ _ _
    (jHexVal_hexDigit (by omega)) (jHexVal_hexDigit (by omega))
    (jHexVal_hexDigit (by omega)) (jHexVal_hexDigit (by omega))]
  have harith : n / 4096 % 16 * 4096 + n / 256 % 16 * 256 + n / 16 % 16 * 16 + n % 16 = n := by
    omega
  rw [harith]

theorem jUnits_uEsc (c : Char) (r : Str) :
    jUnits (uEsc c ++ r)
      = (match jUnits r with
        | some (us, rest) => some (unitsOfChar c ++ us, rest)
        | Option.none => Option.none) := by
  unfold uEsc
  by_cases hbig : c.toNat < 65536
  · rw [if_pos hbig]
    show jUnits ('\\' :: 'u' :: (hex4 c.toNat ++ r)) = _
    rw [jUnits_hex4 c.toNat hbig r, unitsOfChar_small c hbig]
    cases jUnits r with
    | none => rfl
    | some p => rfl
  · rw [if_neg hbig]
    have hm : c.toNat - 65536 < 1048576 := by
      rcases char_valid_ranges c with h | h
      · omega
      · omega
    rw [List.append_assoc]
    show jUnits ('\\' :: 'u' :: (hex4 (55296 + (c.toNat - 65536) / 1024)
      ++ ('\\' :: 'u' :: (hex4 (56320 + (c.toNat - 65536) % 1024) ++ r)))) = _
    rw [jUnits_hex4 _ (by omega) _, jUnits_hex4 _ (by omega) r]
    have hu : unitsOfChar c
        = [55296 + (c.toNat - 65536) / 1024, 56320 + (c.toNat - 65536) % 1024] := by
      unfold unitsOfChar
      rw [if_neg hbig]
    rw [hu]
    cases jUnits r with
    | none => rfl
    | some p => rfl

theorem jUnits_escStr (s : Str) : ∀ rest : Str,
    jUnits (escStr s ++ '"' :: rest) = some (unitsOfStr s, rest) := by
  induction s with
  | nil =>
    intro rest
    show jUnits ('"' :: rest) = some ([], rest)
    conv_lhs => rw [jUnits.eq_def]
    simp only []
    rw [if_pos trivial]
  | cons c tl ih =>
    intro rest
    show jUnits ((escChar c ++ escStr tl) ++ '"' :: rest)
      = some (unitsOfChar c ++ unitsOfStr tl, rest)
    rw [List.append_assoc]
    unfold escChar
    by_cases hc1 : c = '"'
    · subst hc1
      show jUnits ('\\' :: '"' :: (escStr tl ++ '"' :: rest)) = _
      rw [jUnits_short '"' '"' _ (by decide) (by decide), ih rest]
      rfl
    · rw [if_neg hc1]
      by_cases hc2 : c = '\\'
      · subst hc2
        show jUnits ('\\' :: '\\' :: (escStr tl ++ '"' :: rest)) = _
        rw [jUnits_short '\\' '\\' _ (by decide) (by decide), ih rest]
        rfl
      · rw [if_neg hc2]
        by_cases hc3 : c = '\n'
        · subst hc3
          show jUnits ('\\' :: 'n' :: (escStr tl ++ '"' :: rest)) = _
          rw [jUnits_short 'n' '\n' _ (by decide) (by decide), ih rest]
          rfl
        · rw [if_neg hc3]
          by_cases hc4 : c = '\t'
          · subst hc4
            show jUnits ('\\' :: 't' :: (escStr tl ++ '"' :: rest)) = _
            rw [jUnits_short 't' '\t' _ (by decide) (by decide), ih rest]
            rfl
          · rw [if_neg hc4]
            by_cases hc5 : c = '\r'
            · subst hc5
              show jUnits ('\\' :: 'r' :: (escStr tl ++ '"' :: rest)) = _
              rw [jUnits_short 'r' '\r' _ (by decide) (by decide), ih rest]
              rfl
            · rw [if_neg hc5]
              by_cases hc6 : c = '\x08'
              · subst hc6
                show jUnits ('\\' :: 'b' :: (escStr tl ++ '"' :: rest)) = _
                rw [jUnits_short 'b' '\x08' _ (by decide) (by decide), ih rest]
                rfl
              · rw [if_neg hc6]
                by_cases hc7 : c = '\x0c'
                · subst hc7
                  show jUnits ('\\' :: 'f' :: (escStr tl ++ '"' :: rest)) = _
                  rw [jUnits_short 'f' '\x0c' _ (by decide) (by decide), ih rest]
                  rfl
                · rw [if_neg hc7]
                  by_cases hc8 : 32 ≤ c.toNat ∧ c.toNat ≤ 126
                  · rw [if_pos hc8]
                    show jUnits (c :: (escStr tl ++ '"' :: rest)) = _
                    rw [jUnits_plain c _ hc1 hc2 (by omega), ih rest,
                      unitsOfChar_small c (by omega)]
                    rfl
                  · rw [if_neg hc8]
                    rw [jUnits_uEsc c _, ih rest]

theorem jCombine_unitsOfStr (s : Str) : jCombine (unitsOfStr s) = some s := by
  induction s with
  | nil => rfl
  | cons c tl ih =>
    show jCombine (unitsOfChar c ++ unitsOfStr tl) = some (c :: tl)
    by_cases hbig : c.toNat < 65536
    · rw [unitsOfChar_small c hbig]
      have hsc : ¬(55296 ≤ c.toNat ∧ c.toNat ≤ 56319) ∧ ¬(56320 ≤ c.toNat ∧ c.toNat ≤ 57343) := by
        rcases char_valid_ranges c with h | h
        · exact ⟨by omega, by omega⟩
        · exact ⟨by omega, by omega⟩
      show jCombine (c.toNat :: unitsOfStr tl) = _
      rw [jCombine_scalar _ _ hsc.1 hsc.2, ih, Char.ofNat_toNat]
    · have hu : unitsOfChar c
          = [55296 + (c.toNat - 65536) / 1024, 56320 + (c.toNat - 65536) % 1024] := by
        unfold unitsOfChar
        rw [if_neg hbig]
      have hm : c.toNat - 65536 < 1048576 := by
        rcases char_valid_ranges c with h | h
        · omega
        · omega
      rw [hu]
      show jCombine ((55296 + (c.toNat - 65536) / 1024)
        :: (56320 + (c.toNat - 65536) % 1024) :: unitsOfStr tl) = _
      rw [jCombine_pair _ _ _ ⟨by omega, by omega⟩ ⟨by omega, by omega⟩, ih]
      have harith : 65536 + (55296 + (c.toNat - 65536) / 1024 - 55296) * 1024
          + (56320 + (c.toNat - 65536) % 1024 - 56320) = c.toNat := by omega
      rw [harith, Char.ofNat_toNat]

/-- Decoding inverts the `ensure_ascii` escaping: the scan of
`escStr s ++ chr(34) :: rest` returns the original string and `rest`. -/
theorem jString_escStr (s : Str) (rest : Str) :
    jString (escStr s ++ '"' :: rest) = some (s, rest) := by
  unfold jString
  rw [jUnits_escStr s rest]
  simp only []
  rw [jCombine_unitsOfStr]

theorem takeWhile_append_stop {p : Char → Bool} (a b : Str)
    (h : a.dropWhile p ≠ []) :
    (a ++ b).takeWhile p = a.takeWhile p
    ∧ (a ++ b).dropWhile p = a.dropWhile p ++ b := by
  induction a with
  | nil => simp at h
  | cons c tl ih =>
    by_cases hc : p c
    · have h' : tl.dropWhile p ≠ [] := by simpa [List.dropWhile_cons, hc] using h
      constructor
      · simp [List.takeWhile_cons, hc, (ih h').1]
      · simp [List.dropWhile_cons, hc, (ih h').2]
    · constructor
      · simp [List.takeWhile_cons, hc]
      · simp [List.dropWhile_cons, hc]

theorem jsonRestOk_facts {c : Char} {tl : Str} (h : jsonRestOk (c :: tl) = true) :
    isDigitChar c = false ∧ ¬(c = '.') ∧ ¬(c = 'e') ∧ ¬(c = 'E')
    ∧ ¬(c = '+') ∧ ¬(c = '-') := by
  simp only [jsonRestOk, Bool.or_eq_true, decide_eq_true_eq] at h
  rcases h with (h | h) | h <;>
    (subst h; exact ⟨rfl, by decide, by decide, by decide, by decide, by decide⟩)

theorem jsonRestOk_no_digit {t : Str} (h : jsonRestOk t = true) :
    ∀ c, t.head? = some c → isDigitChar c = false := by
  intro c hc
  cases t with
  | nil => simp at hc
  | cons d tl =>
    simp only [List.head?_cons, Option.some.injEq] at hc
    subst hc
    exact (jsonRestOk_facts h).1

theorem jIntPart_append {s ip r1 : Str} (t : Str)
    (h : jIntPart s = some (ip, r1)) (hb : jsonRestOk t = true) :
    jIntPart (s ++ t) = some (ip, r1 ++ t) := by
  cases s with
  | nil => exact absurd h (by simp [jIntPart])
  | cons c tl =>
    simp only [List.cons_append]
    simp only [jIntPart] at h ⊢
    by_cases hc0 : c = '0'
    · rw [if_pos hc0] at h ⊢
      simp only [Option.some.injEq, Prod.mk.injEq] at h
      obtain ⟨h1, h2⟩ := h
      subst h1
      subst h2
      rfl
    · rw [if_neg hc0] at h ⊢
      by_cases hdc : isDigitChar c
      · rw [if_pos hdc] at h ⊢
        simp only [Option.some.injEq, Prod.mk.injEq] at h
        obtain ⟨h1, h2⟩ := h
        subst h1
        subst h2
        by_cases hnil : tl.dropWhile isDigitChar = []
        · have hall : ∀ x ∈ tl, isDigitChar x = true := by
            intro x hx
            exact List.dropWhile_eq_nil_iff.mp hnil x hx
          have happ := takeWhile_append_all (p := isDigitChar) t hall
          have hhd := takeWhile_head_false (p := isDigitChar)
            (b := t) (jsonRestOk_no_digit hb)
          rw [happ.1, happ.2, hhd.1, hhd.2, hnil]
          have htk : tl.takeWhile isDigitChar = tl := by
            have := List.takeWhile_append_dropWhile (p := isDigitChar) (l := tl)
            rw [hnil, List.append_nil] at this
            exact this
          rw [htk]
          simp
        · have happ := takeWhile_append_stop (p := isDigitChar) tl t hnil
          rw [happ.1, happ.2]
      · rw [if_neg hdc] at h
        exact absurd h (by simp)

theorem jFracPart_boundary {t : Str} (h : jsonRestOk t = true) :
    jFracPart t = ([], t) := by
  cases t with
  | nil => rfl
  | cons c tl =>
    obtain ⟨h1, h2, h3, h4, h5, h6⟩ := jsonRestOk_facts h
    simp only [jFracPart]
    rw [if_neg h2]

theorem jExpPart_boundary {t : Str} (h : jsonRestOk t = true) :
    jExpPart t = ([], t) := by
  cases t with
  | nil => rfl
  | cons c tl =>
    obtain ⟨h1, h2, h3, h4, h5, h6⟩ := jsonRestOk_facts h
    simp only [jExpPart]
    rw [if_neg (by simp [h3, h4])]

theorem jFracPart_append {s fp r1 : Str} (t : Str)
    (h : jFracPart s = (fp, r1)) (hb : jsonRestOk t = true) :
    jFracPart (s ++ t) = (fp, r1 ++ t) := by
  cases s with
  | nil =>
    simp only [jFracPart] at h
    cases h
    simpa using jFracPart_boundary hb
  | cons c tl =>
    simp only [List.cons_append]
    simp only [jFracPart] at h ⊢
    by_cases hcdot : c = '.'
    · rw [if_pos hcdot] at h ⊢
      cases tl with
      | nil =>
        simp only [List.nil_append]
        cases h
        cases t with
        | nil => rfl
        | cons d tl2 =>
          obtain ⟨h1, h2, h3, h4, h5, h6⟩ := jsonRestOk_facts hb
          simp only []
          rw [if_neg (by simp [h1])]
          rfl
      | cons d tl2 =>
        simp only [List.cons_append] at h ⊢
        by_cases hd : isDigitChar d = true
        · rw [if_pos hd] at h ⊢
          cases h
          by_cases hnil : tl2.dropWhile isDigitChar = []
          · have hall : ∀ x ∈ tl2, isDigitChar x = true := by
              intro x hx
              exact List.dropWhile_eq_nil_iff.mp hnil x hx
            have happ := takeWhile_append_all (p := isDigitChar) t hall
            have hhd := takeWhile_head_false (p := isDigitChar)
              (b := t) (jsonRestOk_no_digit hb)
            rw [happ.1, happ.2, hhd.1, hhd.2, hnil]
            have htk : tl2.takeWhile isDigitChar = tl2 := by
              have := List.takeWhile_append_dropWhile (p := isDigitChar) (l := tl2)
              rw [hnil, List.append_nil] at this
              exact this
            rw [htk]
            simp
          · have happ := takeWhile_append_stop (p := isDigitChar) tl2 t hnil
            rw [happ.1, happ.2]
        · rw [if_neg hd] at h ⊢
          cases h
          rfl
    · rw [if_neg hcdot] at h ⊢
      cases h
      rfl

theorem jExpPart_append {s ep r1 : Str} (t : Str)
    (h : jExpPart s = (ep, r1)) (hb : jsonRestOk t = true) :
    jExpPart (s ++ t) = (ep, r1 ++ t) := by
  cases s with
  | nil =>
    simp only [jExpPart] at h
    cases h
    simpa using jExpPart_boundary hb
  | cons c tl =>
    simp only [List.cons_append]
    simp only [jExpPart] at h ⊢
    by_cases hce : (c = 'e' || c = 'E') = true
    · rw [if_pos hce] at h ⊢
      cases tl with
      | nil =>
        simp only [List.nil_append]
        cases h
        cases t with
        | nil => rfl
        | cons d tl2 =>
          obtain ⟨h1, h2, h3, h4, h5, h6⟩ := jsonRestOk_facts hb
          simp only []
          rw [if_neg (by simp [h5, h6]), if_neg (by simp [h1])]
          rfl
      | cons sgn tl2 =>
        simp only [List.cons_append] at h ⊢
        by_cases hsgn : (sgn = '+' || sgn = '-') = true
        · rw [if_pos hsgn] at h ⊢
          cases tl2 with
          | nil =>
            simp only [List.nil_append] at h ⊢
            cases h
            cases t with
            | nil => rfl
            | cons d tl3 =>
              obtain ⟨h1, h2, h3, h4, h5, h6⟩ := jsonRestOk_facts hb
              simp only []
              rw [if_neg (by simp [h1])]
              rfl
          | cons d tl3 =>
            simp only [List.cons_append] at h ⊢
            by_cases hd : isDigitChar d = true
            · rw [if_pos hd] at h ⊢
              cases h
              by_cases hnil : tl3.dropWhile isDigitChar = []
              · have hall : ∀ x ∈ tl3, isDigitChar x = true := by
                  intro x hx
                  exact List.dropWhile_eq_nil_iff.mp hnil x hx
                have happ := takeWhile_append_all (p := isDigitChar) t hall
                have hhd := takeWhile_head_false (p := isDigitChar)
                  (b := t) (jsonRestOk_no_digit hb)
                rw [happ.1, happ.2, hhd.1, hhd.2, hnil]
                have htk : tl3.takeWhile isDigitChar = tl3 := by
                  have := List.takeWhile_append_dropWhile (p := isDigitChar) (l := tl3)
                  rw [hnil, List.append_nil] at this
                  exact this
                rw [htk]
                simp
              · have happ := takeWhile_append_stop (p := isDigitChar) tl3 t hnil
                rw [happ.1, happ.2]
            · rw [if_neg hd] at h ⊢
              cases h
              rfl
        · rw [if_neg hsgn] at h ⊢
          by_cases hds : isDigitChar sgn = true
          · rw [if_pos hds] at h ⊢
            cases h
            by_cases hnil : tl2.dropWhile isDigitChar = []
            · have hall : ∀ x ∈ tl2, isDigitChar x = true := by
                intro x hx
                exact List.dropWhile_eq_nil_iff.mp hnil x hx
              have happ := takeWhile_append_all (p := isDigitChar) t hall
              have hhd := takeWhile_head_false (p := isDigitChar)
                (b := t) (jsonRestOk_no_digit hb)
              rw [happ.1, happ.2, hhd.1, hhd.2, hnil]
              have htk : tl2.takeWhile isDigitChar = tl2 := by
                have := List.takeWhile_append_dropWhile (p := isDigitChar) (l := tl2)
                rw [hnil, List.append_nil] at this
                exact this
              rw [htk]
              simp
            · have happ := takeWhile_append_stop (p := isDigitChar) tl2 t hnil
              rw [happ.1, happ.2]
          · rw [if_neg hds] at h ⊢
            cases h
            rfl
    · rw [if_neg hce] at h ⊢
      cases h
      rfl

theorem digit_ne_of {c : Char} (x : Char) (h : isDigitChar c = true)
    (hx : isDigitChar x = false) : ¬(c = x) := by
  intro he
  subst he
  rw [h] at hx
  cases hx

theorem headIs_false {a c : Char} (tl : Str) (h : ¬(c = a)) :
    headIs a (c :: tl) = false := by
  simp [headIs, h]

theorem strStarts_cons_ne (a c : Char) (p tl : Str) (h : ¬(a = c)) :
    strStarts (a :: p) (c :: tl) = false := by
  simp [strStarts, h]

theorem natChars_head (m : Nat) :
    ∃ c cs, natChars m = c :: cs ∧ isDigitChar c = true ∧ (1 ≤ m → ¬(c = '0'))
      ∧ ∀ x ∈ cs, isDigitChar x = true := by
  induction m using Nat.strong_induction_on with
  | _ m ih =>
    rw [natChars_eq]
    by_cases h10 : m < 10
    · rw [if_pos h10]
      refine ⟨digitChar m, [], rfl, isDigitChar_digitChar h10, ?_, by simp⟩
      intro h1
      interval_cases m <;> decide
    · rw [if_neg h10]
      have hlt : m / 10 < m := Nat.div_lt_self (by omega) (by omega)
      obtain ⟨c, cs, he, hd, h0, hcs⟩ := ih (m / 10) hlt
      refine ⟨c, cs ++ [digitChar (m % 10)], by rw [he]; rfl, hd,
        fun _ => h0 (by omega), ?_⟩
      intro x hx
      rcases List.mem_append.mp hx with h | h
      · exact hcs x h
      · simp only [List.mem_singleton] at h
        subst h
        exact isDigitChar_digitChar (by omega)

theorem jIntPart_natChars (m : Nat) : jIntPart (natChars m) = some (natChars m, []) := by
  by_cases hm : m = 0
  · subst hm
    rfl
  · obtain ⟨c, cs, he, hd, h0, hcs⟩ := natChars_head m
    rw [he]
    simp only [jIntPart]
    rw [if_neg (h0 (by omega)), if_pos hd]
    have hnil : cs.dropWhile isDigitChar = [] := List.dropWhile_eq_nil_iff.mpr hcs
    have htk : cs.takeWhile isDigitChar = cs := by
      have := List.takeWhile_append_dropWhile (p := isDigitChar) (l := cs)
      rw [hnil, List.append_nil] at this
      exact this
    rw [hnil, htk]

theorem numScan_append {r : Str} {b : Bool} {tok : Str} (t : Str)
    (h : numScan r = some (b, tok, [])) (hb : jsonRestOk t = true) :
    numScan (r ++ t) = some (b, tok, t) := by
  cases r with
  | nil =>
    rw [show numScan ([] : Str) = Option.none from rfl] at h
    cases h
  | cons c r' =>
    simp only [numScan, List.cons_append, headIs] at h ⊢
    by_cases hc : (c == '-') = true
    · rw [if_pos hc] at h ⊢
      simp only [List.drop_succ_cons, List.drop_zero] at h ⊢
      cases hI : jIntPart r' with
      | none => rw [hI] at h; cases h
      | some p =>
        obtain ⟨ip, r1⟩ := p
        rw [hI] at h
        rw [jIntPart_append t hI hb]
        simp only [] at h ⊢
        rcases hF : jFracPart r1 with ⟨fp, r2⟩
        rw [hF] at h
        rw [jFracPart_append t hF hb]
        simp only [] at h ⊢
        rcases hE : jExpPart r2 with ⟨ep, r3⟩
        rw [hE] at h
        rw [jExpPart_append t hE hb]
        simp only [Option.some.injEq, Prod.mk.injEq] at h ⊢
        obtain ⟨hb1, htok, hr3⟩ := h
        subst hr3
        exact ⟨hb1, htok, rfl⟩
    · rw [if_neg hc] at h ⊢
      cases hI : jIntPart (c :: r') with
      | none => rw [hI] at h; cases h
      | some p =>
        obtain ⟨ip, r1⟩ := p
        rw [hI] at h
        have hIa := jIntPart_append t hI hb
        simp only [List.cons_append] at hIa
        rw [hIa]
        simp only [] at h ⊢
        rcases hF : jFracPart r1 with ⟨fp, r2⟩
        rw [hF] at h
        rw [jFracPart_append t hF hb]
        simp only [] at h ⊢
        rcases hE : jExpPart r2 with ⟨ep, r3⟩
        rw [hE] at h
        rw [jExpPart_append t hE hb]
        simp only [Option.some.injEq, Prod.mk.injEq] at h ⊢
        obtain ⟨hb1, htok, hr3⟩ := h
        subst hr3
        exact ⟨hb1, htok, rfl⟩

theorem numScan_natChars (m : Nat) :
    numScan (natChars m) = some (false, natChars m, []) := by
  obtain ⟨c, cs, he, hd, h0, hcs⟩ := natChars_head m
  have hI := jIntPart_natChars m
  simp only [numScan]
  rw [he] at hI ⊢
  have hmf : (c == '-') = false := by
    simp only [beq_eq_false_iff_ne, ne_eq]
    exact digit_ne_of '-' hd (by decide)
  simp only [headIs, hmf, Bool.false_eq_true, if_false]
  rw [hI]
  simp only [jFracPart, jExpPart, List.append_nil, List.nil_append,
    List.isEmpty_nil, Bool.and_self, Bool.not_true]

theorem numScan_intChars (n : Int) :
    numScan (intChars n) = some (false, intChars n, []) := by
  unfold intChars
  by_cases hneg : n < 0
  · rw [if_pos hneg]
    obtain ⟨c, cs, he, hd, h0, hcs⟩ := natChars_head n.natAbs
    have hI := jIntPart_natChars n.natAbs
    simp only [numScan, headIs, beq_self_eq_true, eq_self_iff_true, if_true,
      List.drop_succ_cons, List.drop_zero]
    rw [hI]
    simp only [jFracPart, jExpPart, List.append_nil, List.nil_append,
      List.isEmpty_nil, Bool.and_self, Bool.not_true]
    rfl
  · rw [if_neg hneg]
    exact numScan_natChars n.toNat

theorem intOfTok_intChars (n : Int) : intOfTok (intChars n) = n := by
  unfold intOfTok intChars
  by_cases hneg : n < 0
  · rw [if_pos hneg]
    simp only [headIs, List.drop_succ_cons, List.drop_zero, beq_self_eq_true,
      eq_self_iff_true, if_true]
    rw [parseNat_natChars]
    omega
  · rw [if_neg hneg]
    obtain ⟨c, cs, he, hd, h0, hcs⟩ := natChars_head n.toNat
    rw [he, headIs_false _ (digit_ne_of '-' hd (by decide)), ← he]
    simp only [Bool.false_eq_true, if_false]
    rw [parseNat_natChars]
    omega

theorem numScan_shape {s : Str} {b : Bool} {tok rest : Str}
    (h : numScan s = some (b, tok, rest)) :
    ∃ c s', s = c :: s'
      ∧ (isDigitChar c = true
        ∨ (c = '-' ∧ ∃ d s'', s' = d :: s'' ∧ isDigitChar d = true)) := by
  cases s with
  | nil =>
    rw [show numScan ([] : Str) = Option.none from rfl] at h
    cases h
  | cons c s' =>
    refine ⟨c, s', rfl, ?_⟩
    simp only [numScan, headIs] at h
    by_cases hc : (c == '-') = true
    · rw [if_pos hc] at h
      simp only [List.drop_succ_cons, List.drop_zero] at h
      right
      refine ⟨by simpa [beq_iff_eq] using hc, ?_⟩
      cases s' with
      | nil =>
        rw [show jIntPart ([] : Str) = Option.none from rfl] at h
        cases h
      | cons d s'' =>
        refine ⟨d, s'', rfl, ?_⟩
        simp only [jIntPart] at h
        by_cases hd0 : d = '0'
        · subst hd0; decide
        · rw [if_neg hd0] at h
          by_cases hdd : isDigitChar d = true
          · exact hdd
          · rw [if_neg hdd] at h
            cases h
    · rw [if_neg hc] at h
      left
      simp only [jIntPart] at h
      by_cases hc0 : c = '0'
      · subst hc0; decide
      · rw [if_neg hc0] at h
        by_cases hcd : isDigitChar c = true
        · exact hcd
        · rw [if_neg hcd] at h
          cases h

theorem jParseVal_numScan (g : Nat) {s : Str} {b : Bool} {tok rest : Str}
    (h : numScan s = some (b, tok, rest)) :
    jParseVal (g + 1) s
      = some (if b then .float (.finite tok) else .int (intOfTok tok), rest) := by
  obtain ⟨c, s', rfl, hshape⟩ := numScan_shape h
  have hfacts : ¬(c = '"') ∧ ¬(c = '[') ∧ ¬(c = '\x7b')
      ∧ strStarts "true".data (c :: s') = false
      ∧ strStarts "false".data (c :: s') = false
      ∧ strStarts "null".data (c :: s') = false
      ∧ strStarts "NaN".data (c :: s') = false
      ∧ strStarts "Infinity".data (c :: s') = false
      ∧ strStarts "-Infinity".data (c :: s') = false := by
    rcases hshape with hd | ⟨hcm, d, s'', rfl, hdd⟩
    · exact ⟨digit_ne_of '"' hd (by decide), digit_ne_of '[' hd (by decide),
        digit_ne_of '\x7b' hd (by decide),
        strStarts_cons_ne 't' c _ _ (fun he => digit_ne_of 't' hd (by decide) he.symm),
        strStarts_cons_ne 'f' c _ _ (fun he => digit_ne_of 'f' hd (by decide) he.symm),
        strStarts_cons_ne 'n' c _ _ (fun he => digit_ne_of 'n' hd (by decide) he.symm),
        strStarts_cons_ne 'N' c _ _ (fun he => digit_ne_of 'N' hd (by decide) he.symm),
        strStarts_cons_ne 'I' c _ _ (fun he => digit_ne_of 'I' hd (by decide) he.symm),
        strStarts_cons_ne '-' c _ _ (fun he => digit_ne_of '-' hd (by decide) he.symm)⟩
    · subst hcm
      exact ⟨by decide, by decide, by decide, rfl, rfl, rfl, rfl, rfl,
        strStarts_cons_ne 'I' d _ _ (fun he => digit_ne_of 'I' hdd (by decide) he.symm)⟩
  obtain ⟨h1, h2, h3, ht, hf, hn, hN, hI, hnI⟩ := hfacts
  conv_lhs => rw [jParseVal.eq_def]
  simp only []
  rw [if_neg h1, if_neg h2, if_neg h3, ht, hf, hn, hN, hI, hnI]
  simp only [Bool.false_eq_true, if_false]
  rw [h]
  simp only []
  cases b with
  | false => rfl
  | true => rfl

theorem jParseVal_int (g : Nat) (n : Int) {t : Str} (hb : jsonRestOk t = true) :
    jParseVal (g + 1) (intChars n ++ t) = some (.int n, t) := by
  have hns := numScan_append t (numScan_intChars n) hb
  rw [jParseVal_numScan g hns]
  simp only [Bool.false_eq_true, if_false, intOfTok_intChars]

theorem floatReprOk_spec {r : Str} (h : floatReprOk r = true) :
    numScan r = some (true, r, []) ∧ pyStrip r = r := by
  unfold floatReprOk at h
  cases hn : numScan r with
  | none => rw [hn] at h; cases h
  | some p =>
    obtain ⟨isF, tok, rest⟩ := p
    rw [hn] at h
    simp only [Bool.and_eq_true, beq_iff_eq, List.isEmpty_iff] at h
    obtain ⟨⟨⟨hF, hre⟩, htok⟩, hstrip⟩ := h
    subst hF
    subst hre
    subst htok
    exact ⟨rfl, hstrip⟩

theorem jParseVal_float (g : Nat) {r : Str} (hok : floatReprOk r = true) {t : Str}
    (hb : jsonRestOk t = true) :
    jParseVal (g + 1) (r ++ t) = some (.float (.finite r), t) := by
  obtain ⟨hns, _⟩ := floatReprOk_spec hok
  rw [jParseVal_numScan g (numScan_append t hns hb)]
  rfl

theorem pyFloatOfStr_wf {r : Str} (hok : floatReprOk r = true) :
    pyFloatOfStr r = .ok (.finite r) := by
  obtain ⟨hns, hstrip⟩ := floatReprOk_spec hok
  simp only [pyFloatOfStr]
  rw [hstrip, hns]
  rfl

def jValHead (c : Char) : Bool :=
  (c = '"') || (c = '[') || (c = '\x7b') || (c = 't') || (c = 'f') || (c = 'n')
    || (c = 'N') || (c = 'I') || (c = '-') || isDigitChar c

theorem jValHead_not_ws {c : Char} (h : jValHead c = true) :
    (c = ' ' || c = '\t' || c = '\n' || c = '\r') = false := by
  simp only [jValHead, Bool.or_eq_true, decide_eq_true_eq] at h
  rcases h with ((((((((h | h) | h) | h) | h) | h) | h) | h) | h) | h
  · subst h; decide
  · subst h; decide
  · subst h; decide
  · subst h; decide
  · subst h; decide
  · subst h; decide
  · subst h; decide
  · subst h; decide
  · subst h; decide
  · simp [digit_ne_of ' ' h (by decide), digit_ne_of '\t' h (by decide),
      digit_ne_of '\n' h (by decide), digit_ne_of '\r' h (by decide)]

theorem jValHead_ne {c : Char} (h : jValHead c = true) :
    ¬(c = ']') ∧ ¬(c = ',') ∧ ¬(c = '\x7d') ∧ ¬(c = ':') := by
  simp only [jValHead, Bool.or_eq_true, decide_eq_true_eq] at h
  rcases h with ((((((((h | h) | h) | h) | h) | h) | h) | h) | h) | h
  · subst h; exact ⟨by decide, by decide, by decide, by decide⟩
  · subst h; exact ⟨by decide, by decide, by decide, by decide⟩
  · subst h; exact ⟨by decide, by decide, by decide, by decide⟩
  · subst h; exact ⟨by decide, by decide, by decide, by decide⟩
  · subst h; exact ⟨by decide, by decide, by decide, by decide⟩
  · subst h; exact ⟨by decide, by decide, by decide, by decide⟩
  · subst h; exact ⟨by decide, by decide, by decide, by decide⟩
  · subst h; exact ⟨by decide, by decide, by decide, by decide⟩
  · subst h; exact ⟨by decide, by decide, by decide, by decide⟩
  · exact ⟨digit_ne_of ']' h (by decide), digit_ne_of ',' h (by decide),
      digit_ne_of '\x7d' h (by decide), digit_ne_of ':' h (by decide)⟩

theorem dumps_head (v : PyVal) (ds : Str) (h : json_dumps v = some ds)
    (hok : jsonOk v = true) : ∃ c ds', ds = c :: ds' ∧ jValHead c = true := by
  cases v with
  | none =>
    injection h with h
    subst h
    exact ⟨'n', _, rfl, by decide⟩
  | bool b =>
    cases b with
    | true => injection h with h; subst h; exact ⟨'t', _, rfl, by decide⟩
    | false => injection h with h; subst h; exact ⟨'f', _, rfl, by decide⟩
  | int n =>
    injection h with h
    subst h
    unfold intChars
    by_cases hneg : n < 0
    · rw [if_pos hneg]
      exact ⟨'-', _, rfl, by decide⟩
    · rw [if_neg hneg]
      obtain ⟨c, cs, he, hd, _, _⟩ := natChars_head n.toNat
      exact ⟨c, cs, he, by simp [jValHead, hd]⟩
  | float x =>
    cases x with
    | finite r =>
      injection h with h
      subst h
      have hok' : floatReprOk r = true := hok
      obtain ⟨hns, _⟩ := floatReprOk_spec hok'
      obtain ⟨c, s', rfl, hshape⟩ := numScan_shape hns
      refine ⟨c, s', rfl, ?_⟩
      rcases hshape with hd | ⟨hcm, _⟩
      · simp [jValHead, hd]
      · subst hcm; decide
    | inf => injection h with h; subst h; exact ⟨'I', _, rfl, by decide⟩
    | neginf => injection h with h; subst h; exact ⟨'-', _, rfl, by decide⟩
    | nan => injection h with h; subst h; exact ⟨'N', _, rfl, by decide⟩
  | str s =>
    injection h with h
    subst h
    exact ⟨'"', _, rfl, by decide⟩
  | list xs =>
    simp only [json_dumps] at h
    cases hb : json_dumpsL xs with
    | none => rw [hb] at h; cases h
    | some body =>
      rw [hb] at h
      injection h with h
      subst h
      exact ⟨'[', _, rfl, by decide⟩
  | dict kvs =>
    simp only [json_dumps] at h
    cases hb : json_dumpsD kvs with
    | none => rw [hb] at h; cases h
    | some body =>
      rw [hb] at h
      injection h with h
      subst h
      exact ⟨'\x7b', _, rfl, by decide⟩
  | lazy l => cases h
  | metaReset m => cases h
  | metaDel m => cases h
  | merge m u => cases h
  | empty => cases h

theorem jSkipWs_dumps (v : PyVal) (ds t : Str) (h : json_dumps v = some ds)
    (hok : jsonOk v = true) : jSkipWs (ds ++ t) = ds ++ t := by
  obtain ⟨c, ds', rfl, hh⟩ := dumps_head v _ h hok
  exact jSkipWs_no_ws (by
    intro c' hc'
    simp only [List.cons_append, List.head?_cons, Option.some.injEq] at hc'
    subst hc'
    exact jValHead_not_ws hh)

theorem dumpsL_head (w : PyVal) (tl : PyList) (ds : Str)
    (h : json_dumpsL (.cons w tl) = some ds)
    (hok : jsonOkL (.cons w tl) = true) :
    ∃ c ds', ds = c :: ds' ∧ jValHead c = true := by
  have hokw : jsonOk w = true := by
    simp only [jsonOkL, Bool.and_eq_true] at hok
    exact hok.1
  cases tl with
  | nil => exact dumps_head w ds h hokw
  | cons w2 tl2 =>
    simp only [json_dumpsL] at h
    cases ha : json_dumps w with
    | none => rw [ha] at h; cases h
    | some a =>
      rw [ha] at h
      cases hbb : json_dumpsL (.cons w2 tl2) with
      | none => rw [hbb] at h; cases h
      | some bb =>
        rw [hbb] at h
        injection h with h
        subst h
        obtain ⟨c, a', rfl, hh⟩ := dumps_head w a ha hokw
        exact ⟨c, _, rfl, hh⟩

theorem dumpsD_head (k : Str) (w : PyVal) (tl : PyDict) (ds : Str)
    (h : json_dumpsD (.cons k w tl) = some ds) :
    ∃ ds', ds = '"' :: ds' := by
  cases tl with
  | nil =>
    simp only [json_dumpsD] at h
    cases ha : json_dumps w with
    | none => rw [ha] at h; cases h
    | some a =>
      rw [ha] at h
      injection h with h
      subst h
      exact ⟨_, rfl⟩
  | cons k2 w2 tl2 =>
    simp only [json_dumpsD] at h
    cases ha : json_dumps w with
    | none => rw [ha] at h; cases h
    | some a =>
      rw [ha] at h
      cases hbb : json_dumpsD (.cons k2 w2 tl2) with
      | none => rw [hbb] at h; cases h
      | some bb =>
        rw [hbb] at h
        injection h with h
        subst h
        exact ⟨_, rfl⟩

theorem jSkipWs_dumpsL (w : PyVal) (tl : PyList) (ds t : Str)
    (h : json_dumpsL (.cons w tl) = some ds)
    (hok : jsonOkL (.cons w tl) = true) : jSkipWs (ds ++ t) = ds ++ t := by
  obtain ⟨c, ds', rfl, hh⟩ := dumpsL_head w tl _ h hok
  exact jSkipWs_no_ws (by
    intro c' hc'
    simp only [List.cons_append, List.head?_cons, Option.some.injEq] at hc'
    subst hc'
    exact jValHead_not_ws hh)

theorem jSkipWs_dumpsD (k : Str) (w : PyVal) (tl : PyDict) (ds t : Str)
    (h : json_dumpsD (.cons k w tl) = some ds) :
    jSkipWs (ds ++ t) = ds ++ t := by
  obtain ⟨ds', rfl⟩ := dumpsD_head k w tl _ h
  exact jSkipWs_no_ws (by
    intro c' hc'
    simp only [List.cons_append, List.head?_cons, Option.some.injEq] at hc'
    subst hc'
    decide)

mutual

theorem jsonSize_le_dumps : ∀ (v : PyVal) (ds : Str),
    json_dumps v = some ds → jsonOk v = true → jsonSize v ≤ ds.length
  | .none, ds, h, _ => by injection h with h; subst h; decide
  | .bool true, ds, h, _ => by injection h with h; subst h; decide
  | .bool false, ds, h, _ => by injection h with h; subst h; decide
  | .int n, ds, h, _ => by
    injection h with h
    subst h
    show jsonSize (.int n) ≤ (intChars n).length
    unfold intChars
    obtain ⟨c, cs, he, _, _, _⟩ := natChars_head n.natAbs
    obtain ⟨c2, cs2, he2, _, _, _⟩ := natChars_head n.toNat
    by_cases hneg : n < 0
    · rw [if_pos hneg, he]
      simp [jsonSize]
    · rw [if_neg hneg, he2]
      simp [jsonSize]
  | .float (.finite r), ds, h, hok => by
    injection h with h
    subst h
    obtain ⟨hns, _⟩ := floatReprOk_spec (show floatReprOk r = true from hok)
    obtain ⟨c, s', rfl, _⟩ := numScan_shape hns
    simp [jsonSize]
  | .float .inf, ds, h, _ => by injection h with h; subst h; decide
  | .float .neginf, ds, h, _ => by injection h with h; subst h; decide
  | .float .nan, ds, h, _ => by injection h with h; subst h; decide
  | .str s, ds, h, _ => by
    injection h with h
    subst h
    simp [jsonSize]
  | .list xs, ds, h, hok => by
    simp only [json_dumps] at h
    cases hb : json_dumpsL xs with
    | none => rw [hb] at h; cases h
    | some body =>
      rw [hb] at h
      injection h with h
      subst h
      have hL := jsonSizeL_le_dumps xs body hb hok
      show 1 + jsonSizeL xs ≤ _
      simp only [List.length_cons, List.length_append, List.length_singleton]
      omega
  | .dict kvs, ds, h, hok => by
    simp only [json_dumps] at h
    cases hb : json_dumpsD kvs with
    | none => rw [hb] at h; cases h
    | some body =>
      rw [hb] at h
      injection h with h
      subst h
      have hD := jsonSizeD_le_dumps kvs body hb hok
      show 1 + jsonSizeD kvs ≤ _
      simp only [List.length_cons, List.length_append, List.length_singleton]
      omega
  | .lazy l, ds, h, _ => by cases h
  | .metaReset m, ds, h, _ => by cases h
  | .metaDel m, ds, h, _ => by cases h
  | .merge m u, ds, h, _ => by cases h
  | .empty, ds, h, _ => by cases h

theorem jsonSizeL_le_dumps : ∀ (xs : PyList) (ds : Str),
    json_dumpsL xs = some ds → jsonOkL xs = true → jsonSizeL xs ≤ ds.length + 1
  | .nil, ds, h, _ => by exact Nat.zero_le _
  | .cons v .nil, ds, h, hok => by
    have hokv : jsonOk v = true := by
      simp only [jsonOkL, Bool.and_eq_true] at hok
      exact hok.1
    have hv := jsonSize_le_dumps v ds h hokv
    show 1 + jsonSize v + jsonSizeL .nil ≤ _
    simp only [jsonSizeL]
    omega
  | .cons v (.cons w tl2), ds, h, hok => by
    simp only [jsonOkL, Bool.and_eq_true] at hok
    simp only [json_dumpsL] at h
    cases ha : json_dumps v with
    | none => rw [ha] at h; cases h
    | some a =>
      rw [ha] at h
      cases hbb : json_dumpsL (.cons w tl2) with
      | none => rw [hbb] at h; cases h
      | some bb =>
        rw [hbb] at h
        injection h with h
        subst h
        have hv := jsonSize_le_dumps v a ha hok.1
        have htl := jsonSizeL_le_dumps (.cons w tl2) bb hbb
          (by simp only [jsonOkL, Bool.and_eq_true]; exact hok.2)
        show 1 + jsonSize v + jsonSizeL (.cons w tl2) ≤ _
        simp only [List.length_append, List.length_cons]
        omega

theorem jsonSizeD_le_dumps : ∀ (kvs : PyDict) (ds : Str),
    json_dumpsD kvs = some ds → jsonOkD kvs = true → jsonSizeD kvs ≤ ds.length + 1
  | .nil, ds, h, _ => by exact Nat.zero_le _
  | .cons k v .nil, ds, h, hok => by
    have hokv : jsonOk v = true := by
      simp only [jsonOkD, Bool.and_eq_true] at hok
      exact hok.1
    simp only [json_dumpsD] at h
    cases ha : json_dumps v with
    | none => rw [ha] at h; cases h
    | some a =>
      rw [ha] at h
      injection h with h
      subst h
      have hv := jsonSize_le_dumps v a ha hokv
      show 1 + jsonSize v + jsonSizeD .nil ≤ _
      simp only [jsonSizeD, List.length_cons, List.length_append]
      omega
  | .cons k v (.cons k2 w tl2), ds, h, hok => by
    simp only [jsonOkD, Bool.and_eq_true] at hok
    simp only [json_dumpsD] at h
    cases ha : json_dumps v with
    | none => rw [ha] at h; cases h
    | some a =>
      rw [ha] at h
      cases hbb : json_dumpsD (.cons k2 w tl2) with
      | none => rw [hbb] at h; cases h
      | some bb =>
        rw [hbb] at h
        injection h with h
        subst h
        have hv := jsonSize_le_dumps v a ha hok.1
        have htl := jsonSizeD_le_dumps (.cons k2 w tl2) bb hbb
          (by simp only [jsonOkD, Bool.and_eq_true]; exact hok.2)
        show 1 + jsonSize v + jsonSizeD (.cons k2 w tl2) ≤ _
        simp only [List.length_append, List.length_cons]
        omega

end

mutual

theorem json_dumps_ok : ∀ (v : PyVal), jsonOk v = true → ∃ ds, json_dumps v = some ds
  | .none, _ => ⟨_, rfl⟩
  | .bool true, _ => ⟨_, rfl⟩
  | .bool false, _ => ⟨_, rfl⟩
  | .int n, _ => ⟨_, rfl⟩
  | .float (.finite r), _ => ⟨_, rfl⟩
  | .float .inf, _ => ⟨_, rfl⟩
  | .float .neginf, _ => ⟨_, rfl⟩
  | .float .nan, _ => ⟨_, rfl⟩
  | .str s, _ => ⟨_, rfl⟩
  | .list xs, hok => by
    obtain ⟨body, hb⟩ := json_dumpsL_ok xs hok
    exact ⟨'[' :: body ++ [']'], by simp only [json_dumps, hb]; rfl⟩
  | .dict kvs, hok => by
    obtain ⟨body, hb⟩ := json_dumpsD_ok kvs hok
    exact ⟨'\x7b' :: body ++ ['\x7d'], by simp only [json_dumps, hb]; rfl⟩
  | .lazy l, hok => by cases hok
  | .metaReset m, hok => by cases hok
  | .metaDel m, hok => by cases hok
  | .merge m u, hok => by cases hok
  | .empty, hok => by cases hok

theorem json_dumpsL_ok : ∀ (xs : PyList), jsonOkL xs = true → ∃ ds, json_dumpsL xs = some ds
  | .nil, _ => ⟨[], rfl⟩
  | .cons v .nil, hok => by
    have hokv : jsonOk v = true := by
      simp only [jsonOkL, Bool.and_eq_true] at hok
      exact hok.1
    obtain ⟨a, ha⟩ := json_dumps_ok v hokv
    exact ⟨a, ha⟩
  | .cons v (.cons w tl2), hok => by
    simp only [jsonOkL, Bool.and_eq_true] at hok
    obtain ⟨a, ha⟩ := json_dumps_ok v hok.1
    obtain ⟨bb, hbb⟩ := json_dumpsL_ok (.cons w tl2)
      (by simp only [jsonOkL, Bool.and_eq_true]; exact hok.2)
    refine ⟨a ++ ',' :: ' ' :: bb, ?_⟩
    simp only [json_dumpsL]
    rw [ha, hbb]

theorem json_dumpsD_ok : ∀ (kvs : PyDict), jsonOkD kvs = true → ∃ ds, json_dumpsD kvs = some ds
  | .nil, _ => ⟨[], rfl⟩
  | .cons k v .nil, hok => by
    have hokv : jsonOk v = true := by
      simp only [jsonOkD, Bool.and_eq_true] at hok
      exact hok.1
    obtain ⟨a, ha⟩ := json_dumps_ok v hokv
    refine ⟨'"' :: escStr k ++ '"' :: ':' :: ' ' :: a, ?_⟩
    simp only [json_dumpsD]
    rw [ha]
    rfl
  | .cons k v (.cons k2 w tl2), hok => by
    simp only [jsonOkD, Bool.and_eq_true] at hok
    obtain ⟨a, ha⟩ := json_dumps_ok v hok.1
    obtain ⟨bb, hbb⟩ := json_dumpsD_ok (.cons k2 w tl2)
      (by simp only [jsonOkD, Bool.and_eq_true]; exact hok.2)
    refine ⟨('"' :: escStr k ++ '"' :: ':' :: ' ' :: a) ++ ',' :: ' ' :: bb, ?_⟩
    simp only [json_dumpsD]
    rw [ha, hbb]

end

mutual

theorem jParseVal_dumps : ∀ (v : PyVal) (g : Nat) (ds rest : Str),
    json_dumps v = some ds → jsonOk v = true → jsonRestOk rest = true →
    jParseVal (g + jsonSize v) (ds ++ rest) = some (v, rest)
  | .none, g, ds, rest, h, _, _ => by
    injection h with h
    subst h
    rfl
  | .bool true, g, ds, rest, h, _, _ => by
    injection h with h
    subst h
    rfl
  | .bool false, g, ds, rest, h, _, _ => by
    injection h with h
    subst h
    rfl
  | .int n, g, ds, rest, h, _, hrest => by
    injection h with h
    subst h
    exact jParseVal_int g n hrest
  | .float (.finite r), g, ds, rest, h, hok, hrest => by
    injection h with h
    subst h
    exact jParseVal_float g (show floatReprOk r = true from hok) hrest
  | .float .inf, g, ds, rest, h, _, _ => by
    injection h with h
    subst h
    rfl
  | .float .neginf, g, ds, rest, h, _, _ => by
    injection h with h
    subst h
    rfl
  | .float .nan, g, ds, rest, h, _, _ => by
    injection h with h
    subst h
    rfl
  | .str s, g, ds, rest, h, _, _ => by
    injection h with h
    subst h
    have hin : ('"' :: escStr s ++ ['"']) ++ rest = '"' :: (escStr s ++ '"' :: rest) := by
      simp [List.cons_append, List.append_assoc]
    rw [hin]
    have hstep : jParseVal (g + jsonSize (.str s)) ('"' :: (escStr s ++ '"' :: rest))
        = (match jString (escStr s ++ '"' :: rest) with
          | some (content, r) => some (.str content, r)
          | Option.none => Option.none) := rfl
    rw [hstep, jString_escStr]
  | .list .nil, g, ds, rest, h, _, _ => by
    injection h with h
    subst h
    rfl
  | .list (.cons v tl), g, ds, rest, h, hok, hrest => by
    simp only [json_dumps] at h
    cases hb : json_dumpsL (.cons v tl) with
    | none => rw [hb] at h; cases h
    | some body =>
      rw [hb] at h
      injection h with h
      subst h
      have hokL : jsonOkL (.cons v tl) = true := hok
      have hin : ('[' :: body ++ [']']) ++ rest = '[' :: (body ++ ']' :: rest) := by
        simp [List.cons_append, List.append_assoc]
      rw [hin]
      have hf : g + jsonSize (.list (.cons v tl)) = (g + jsonSizeL (.cons v tl)) + 1 := by
        show g + (1 + jsonSizeL (.cons v tl)) = _
        omega
      rw [hf]
      have hstep : jParseVal ((g + jsonSizeL (.cons v tl)) + 1) ('[' :: (body ++ ']' :: rest))
          = (if headIs ']' (jSkipWs (body ++ ']' :: rest)) then
              some (.list .nil, (jSkipWs (body ++ ']' :: rest)).drop 1)
            else
              match jParseItems (g + jsonSizeL (.cons v tl)) (jSkipWs (body ++ ']' :: rest)) with
              | some (xs, r) => some (.list xs, r)
              | Option.none => Option.none) := rfl
      rw [hstep, jSkipWs_dumpsL v tl body (']' :: rest) hb hokL]
      obtain ⟨c, body', rfl, hh⟩ := dumpsL_head v tl body hb hokL
      rw [show ((c :: body') ++ ']' :: rest : Str) = c :: (body' ++ ']' :: rest) from rfl,
        headIs_false _ (jValHead_ne hh).1]
      simp only [Bool.false_eq_true, if_false]
      rw [show (c :: (body' ++ ']' :: rest) : Str) = (c :: body') ++ ']' :: rest from rfl,
        jParseItems_dumps (.cons v tl) g (c :: body') rest (by intro hx; cases hx) hb hokL hrest]
  | .dict .nil, g, ds, rest, h, _, _ => by
    injection h with h
    subst h
    rfl
  | .dict (.cons k v tl), g, ds, rest, h, hok, hrest => by
    simp only [json_dumps] at h
    cases hb : json_dumpsD (.cons k v tl) with
    | none => rw [hb] at h; cases h
    | some body =>
      rw [hb] at h
      injection h with h
      subst h
      have hokD : jsonOkD (.cons k v tl) = true := hok
      have hin : ('\x7b' :: body ++ ['\x7d']) ++ rest = '\x7b' :: (body ++ '\x7d' :: rest) := by
        simp [List.cons_append, List.append_assoc]
      rw [hin]
      have hf : g + jsonSize (.dict (.cons k v tl)) = (g + jsonSizeD (.cons k v tl)) + 1 := by
        show g + (1 + jsonSizeD (.cons k v tl)) = _
        omega
      rw [hf]
      have hstep : jParseVal ((g + jsonSizeD (.cons k v tl)) + 1) ('\x7b' :: (body ++ '\x7d' :: rest))
          = (if headIs '\x7d' (jSkipWs (body ++ '\x7d' :: rest)) then
              some (.dict .nil, (jSkipWs (body ++ '\x7d' :: rest)).drop 1)
            else
              match jParsePairs (g + jsonSizeD (.cons k v tl)) (jSkipWs (body ++ '\x7d' :: rest)) with
              | some (kvs, r) => some (.dict kvs, r)
              | Option.none => Option.none) := rfl
      rw [hstep, jSkipWs_dumpsD k v tl body ('\x7d' :: rest) hb]
      obtain ⟨body', rfl⟩ := dumpsD_head k v tl body hb
      rw [show (('"' :: body') ++ '\x7d' :: rest : Str) = '"' :: (body' ++ '\x7d' :: rest) from rfl,
        headIs_false _ (by decide)]
      simp only [Bool.false_eq_true, if_false]
      rw [show ('"' :: (body' ++ '\x7d' :: rest) : Str) = ('"' :: body') ++ '\x7d' :: rest from rfl,
        jParsePairs_dumps (.cons k v tl) g ('"' :: body') rest (by intro hx; cases hx) hb hokD hrest]
  | .lazy l, g, ds, rest, h, _, _ => by cases h
  | .metaReset m, g, ds, rest, h, _, _ => by cases h
  | .metaDel m, g, ds, rest, h, _, _ => by cases h
  | .merge m u, g, ds, rest, h, _, _ => by cases h
  | .empty, g, ds, rest, h, _, _ => by cases h

theorem jParseItems_dumps : ∀ (xs : PyList) (g : Nat) (ds rest : Str),
    xs ≠ .nil → json_dumpsL xs = some ds → jsonOkL xs = true → jsonRestOk rest = true →
    jParseItems (g + jsonSizeL xs) (ds ++ ']' :: rest) = some (xs, rest)
  | .nil, g, ds, rest, hne, _, _, _ => absurd rfl hne
  | .cons v .nil, g, ds, rest, _, h, hok, hrest => by
    have hokv : jsonOk v = true := by
      simp only [jsonOkL, Bool.and_eq_true] at hok
      exact hok.1
    have hf : g + jsonSizeL (.cons v .nil) = (g + jsonSize v) + 1 := by
      show g + (1 + jsonSize v + jsonSizeL .nil) = _
      show g + (1 + jsonSize v + 0) = _
      omega
    rw [hf]
    have hstep : jParseItems ((g + jsonSize v) + 1) (ds ++ ']' :: rest)
        = (match jParseVal (g + jsonSize v) (ds ++ ']' :: rest) with
          | some (w, r) =>
            if headIs ',' (jSkipWs r) then
              match jParseItems (g + jsonSize v) (jSkipWs ((jSkipWs r).drop 1)) with
              | some (tl2, r3) => some (.cons w tl2, r3)
              | Option.none => Option.none
            else if headIs ']' (jSkipWs r) then some (.cons w .nil, (jSkipWs r).drop 1)
            else Option.none
          | Option.none => Option.none) := rfl
    rw [hstep, jParseVal_dumps v g ds (']' :: rest) h hokv rfl]
    rfl
  | .cons v (.cons w tl2), g, ds, rest, _, h, hok, hrest => by
    simp only [jsonOkL, Bool.and_eq_true] at hok
    have hoktl : jsonOkL (.cons w tl2) = true := by
      simp only [jsonOkL, Bool.and_eq_true]
      exact hok.2
    simp only [json_dumpsL] at h
    cases ha : json_dumps v with
    | none => rw [ha] at h; cases h
    | some a =>
      rw [ha] at h
      cases hbb : json_dumpsL (.cons w tl2) with
      | none => rw [hbb] at h; cases h
      | some bb =>
        rw [hbb] at h
        injection h with h
        subst h
        have hf : g + jsonSizeL (.cons v (.cons w tl2))
            = (g + jsonSize v + jsonSizeL (.cons w tl2)) + 1 := by
          show g + (1 + jsonSize v + jsonSizeL (.cons w tl2)) = _
          omega
        rw [hf]
        have hin : (a ++ ',' :: ' ' :: bb) ++ ']' :: rest
            = a ++ (',' :: ' ' :: (bb ++ ']' :: rest)) := by
          simp [List.append_assoc]
        rw [hin]
        have hstep : jParseItems ((g + jsonSize v + jsonSizeL (.cons w tl2)) + 1)
              (a ++ (',' :: ' ' :: (bb ++ ']' :: rest)))
            = (match jParseVal (g + jsonSize v + jsonSizeL (.cons w tl2))
                  (a ++ (',' :: ' ' :: (bb ++ ']' :: rest))) with
              | some (w2, r) =>
                if headIs ',' (jSkipWs r) then
                  match jParseItems (g + jsonSize v + jsonSizeL (.cons w tl2))
                      (jSkipWs ((jSkipWs r).drop 1)) with
                  | some (tl3, r3) => some (.cons w2 tl3, r3)
                  | Option.none => Option.none
                else if headIs ']' (jSkipWs r) then some (.cons w2 .nil, (jSkipWs r).drop 1)
                else Option.none
              | Option.none => Option.none) := rfl
        have hv : jParseVal (g + jsonSize v + jsonSizeL (.cons w tl2))
              (a ++ (',' :: ' ' :: (bb ++ ']' :: rest)))
            = some (v, ',' :: ' ' :: (bb ++ ']' :: rest)) := by
          have := jParseVal_dumps v (g + jsonSizeL (.cons w tl2)) a
            (',' :: ' ' :: (bb ++ ']' :: rest)) ha hok.1 rfl
          rw [show g + jsonSize v + jsonSizeL (.cons w tl2)
            = g + jsonSizeL (.cons w tl2) + jsonSize v from by omega]
          exact this
        rw [hstep, hv]
        have hsk : jSkipWs (' ' :: (bb ++ ']' :: rest)) = bb ++ ']' :: rest := by
          rw [show jSkipWs (' ' :: (bb ++ ']' :: rest)) = jSkipWs (bb ++ ']' :: rest) from rfl]
          exact jSkipWs_dumpsL w tl2 bb (']' :: rest) hbb hoktl
        simp only []
        rw [show jSkipWs (',' :: ' ' :: (bb ++ ']' :: rest))
            = ',' :: ' ' :: (bb ++ ']' :: rest) from rfl]
        rw [show headIs ',' (',' :: ' ' :: (bb ++ ']' :: rest)) = true from rfl]
        simp only [if_true]
        rw [show ((',' :: ' ' :: (bb ++ ']' :: rest) : Str)).drop 1
            = ' ' :: (bb ++ ']' :: rest) from rfl, hsk]
        rw [jParseItems_dumps (.cons w tl2) (g + jsonSize v) bb rest
          (by intro hx; cases hx) hbb hoktl hrest]

theorem jParsePairs_dumps : ∀ (kvs : PyDict) (g : Nat) (ds rest : Str),
    kvs ≠ .nil → json_dumpsD kvs = some ds → jsonOkD kvs = true → jsonRestOk rest = true →
    jParsePairs (g + jsonSizeD kvs) (ds ++ '\x7d' :: rest) = some (kvs, rest)
  | .nil, g, ds, rest, hne, _, _, _ => absurd rfl hne
  | .cons k v .nil, g, ds, rest, _, h, hok, hrest => by
    have hokv : jsonOk v = true := by
      simp only [jsonOkD, Bool.and_eq_true] at hok
      exact hok.1
    simp only [json_dumpsD] at h
    cases ha : json_dumps v with
    | none => rw [ha] at h; cases h
    | some a =>
      rw [ha] at h
      injection h with h
      subst h
      have hf : g + jsonSizeD (.cons k v .nil) = (g + jsonSize v) + 1 := by
        show g + (1 + jsonSize v + jsonSizeD .nil) = _
        show g + (1 + jsonSize v + 0) = _
        omega
      rw [hf]
      have hin : (('"' :: escStr k ++ '"' :: ':' :: ' ' :: a) ++ '\x7d' :: rest : Str)
          = '"' :: (escStr k ++ '"' :: (':' :: ' ' :: (a ++ '\x7d' :: rest))) := by
        simp [List.cons_append, List.append_assoc]
      rw [hin]
      have hstep : jParsePairs ((g + jsonSize v) + 1)
            ('"' :: (escStr k ++ '"' :: (':' :: ' ' :: (a ++ '\x7d' :: rest))))
          = (match jString (escStr k ++ '"' :: (':' :: ' ' :: (a ++ '\x7d' :: rest))) with
            | some (k2, r) =>
              if headIs ':' (jSkipWs r) then
                match jParseVal (g + jsonSize v) (jSkipWs ((jSkipWs r).drop 1)) with
                | some (v2, r3) =>
                  if headIs ',' (jSkipWs r3) then
                    match jParsePairs (g + jsonSize v) (jSkipWs ((jSkipWs r3).drop 1)) with
                    | some (kvs2, r5) => some (.cons k2 v2 kvs2, r5)
                    | Option.none => Option.none
                  else if headIs '\x7d' (jSkipWs r3) then some (.cons k2 v2 .nil, (jSkipWs r3).drop 1)
                  else Option.none
                | Option.none => Option.none
              else Option.none
            | Option.none => Option.none) := rfl
      rw [hstep, jString_escStr]
      simp only []
      rw [show jSkipWs (':' :: ' ' :: (a ++ '\x7d' :: rest))
          = ':' :: ' ' :: (a ++ '\x7d' :: rest) from rfl]
      rw [show headIs ':' (':' :: ' ' :: (a ++ '\x7d' :: rest)) = true from rfl]
      simp only [if_true]
      rw [show ((':' :: ' ' :: (a ++ '\x7d' :: rest) : Str)).drop 1
          = ' ' :: (a ++ '\x7d' :: rest) from rfl]
      have hsk : jSkipWs (' ' :: (a ++ '\x7d' :: rest)) = a ++ '\x7d' :: rest := by
        rw [show jSkipWs (' ' :: (a ++ '\x7d' :: rest)) = jSkipWs (a ++ '\x7d' :: rest) from rfl]
        exact jSkipWs_dumps v a ('\x7d' :: rest) ha hokv
      rw [hsk, jParseVal_dumps v g a ('\x7d' :: rest) ha hokv rfl]
      rfl
  | .cons k v (.cons k2 w tl2), g, ds, rest, _, h, hok, hrest => by
    simp only [jsonOkD, Bool.and_eq_true] at hok
    have hoktl : jsonOkD (.cons k2 w tl2) = true := by
      simp only [jsonOkD, Bool.and_eq_true]
      exact hok.2
    simp only [json_dumpsD] at h
    cases ha : json_dumps v with
    | none => rw [ha] at h; cases h
    | some a =>
      rw [ha] at h
      cases hbb : json_dumpsD (.cons k2 w tl2) with
      | none => rw [hbb] at h; cases h
      | some bb =>
        rw [hbb] at h
        injection h with h
        subst h
        have hf : g + jsonSizeD (.cons k v (.cons k2 w tl2))
            = (g + jsonSize v + jsonSizeD (.cons k2 w tl2)) + 1 := by
          show g + (1 + jsonSize v + jsonSizeD (.cons k2 w tl2)) = _
          omega
        rw [hf]
        have hin : ((('"' :: escStr k ++ '"' :: ':' :: ' ' :: a) ++ ',' :: ' ' :: bb)
              ++ '\x7d' :: rest : Str)
            = '"' :: (escStr k ++ '"' :: (':' :: ' '
              :: (a ++ ',' :: ' ' :: (bb ++ '\x7d' :: rest)))) := by
          simp [List.cons_append, List.append_assoc]
        rw [hin]
        have hstep : jParsePairs ((g + jsonSize v + jsonSizeD (.cons k2 w tl2)) + 1)
              ('"' :: (escStr k ++ '"' :: (':' :: ' '
                :: (a ++ ',' :: ' ' :: (bb ++ '\x7d' :: rest)))))
            = (match jString (escStr k ++ '"' :: (':' :: ' '
                  :: (a ++ ',' :: ' ' :: (bb ++ '\x7d' :: rest)))) with
              | some (k3, r) =>
                if headIs ':' (jSkipWs r) then
                  match jParseVal (g + jsonSize v + jsonSizeD (.cons k2 w tl2))
                      (jSkipWs ((jSkipWs r).drop 1)) with
                  | some (v2, r3) =>
                    if headIs ',' (jSkipWs r3) then
                      match jParsePairs (g + jsonSize v + jsonSizeD (.cons k2 w tl2))
                          (jSkipWs ((jSkipWs r3).drop 1)) with
                      | some (kvs2, r5) => some (.cons k3 v2 kvs2, r5)
                      | Option.none => Option.none
                    else if headIs '\x7d' (jSkipWs r3) then
                      some (.cons k3 v2 .nil, (jSkipWs r3).drop 1)
                    else Option.none
                  | Option.none => Option.none
                else Option.none
              | Option.none => Option.none) := rfl
        rw [hstep, jString_escStr]
        simp only []
        rw [show jSkipWs (':' :: ' ' :: (a ++ ',' :: ' ' :: (bb ++ '\x7d' :: rest)))
            = ':' :: ' ' :: (a ++ ',' :: ' ' :: (bb ++ '\x7d' :: rest)) from rfl]
        rw [show headIs ':' (':' :: ' ' :: (a ++ ',' :: ' ' :: (bb ++ '\x7d' :: rest)))
            = true from rfl]
        simp only [if_true]
        rw [show ((':' :: ' ' :: (a ++ ',' :: ' ' :: (bb ++ '\x7d' :: rest)) : Str)).drop 1
            = ' ' :: (a ++ ',' :: ' ' :: (bb ++ '\x7d' :: rest)) from rfl]
        have hsk : jSkipWs (' ' :: (a ++ ',' :: ' ' :: (bb ++ '\x7d' :: rest)))
            = a ++ ',' :: ' ' :: (bb ++ '\x7d' :: rest) := by
          rw [show jSkipWs (' ' :: (a ++ ',' :: ' ' :: (bb ++ '\x7d' :: rest)))
              = jSkipWs (a ++ ',' :: ' ' :: (bb ++ '\x7d' :: rest)) from rfl]
          exact jSkipWs_dumps v a (',' :: ' ' :: (bb ++ '\x7d' :: rest)) ha hok.1
        rw [hsk]
        have hv : jParseVal (g + jsonSize v + jsonSizeD (.cons k2 w tl2))
              (a ++ ',' :: ' ' :: (bb ++ '\x7d' :: rest))
            = some (v, ',' :: ' ' :: (bb ++ '\x7d' :: rest)) := by
          have := jParseVal_dumps v (g + jsonSizeD (.cons k2 w tl2)) a
            (',' :: ' ' :: (bb ++ '\x7d' :: rest)) ha hok.1 rfl
          rw [show g + jsonSize v + jsonSizeD (.cons k2 w tl2)
            = g + jsonSizeD (.cons k2 w tl2) + jsonSize v from by omega]
          exact this
        rw [hv]
        simp only []
        rw [show jSkipWs (',' :: ' ' :: (bb ++ '\x7d' :: rest))
            = ',' :: ' ' :: (bb ++ '\x7d' :: rest) from rfl]
        rw [show headIs ',' (',' :: ' ' :: (bb ++ '\x7d' :: rest)) = true from rfl]
        simp only [if_true]
        rw [show ((',' :: ' ' :: (bb ++ '\x7d' :: rest) : Str)).drop 1
            = ' ' :: (bb ++ '\x7d' :: rest) from rfl]
        have hsk2 : jSkipWs (' ' :: (bb ++ '\x7d' :: rest)) = bb ++ '\x7d' :: rest := by
          rw [show jSkipWs (' ' :: (bb ++ '\x7d' :: rest))
              = jSkipWs (bb ++ '\x7d' :: rest) from rfl]
          exact jSkipWs_dumpsD k2 w tl2 bb ('\x7d' :: rest) hbb
        rw [hsk2]
        rw [jParsePairs_dumps (.cons k2 w tl2) (g + jsonSize v) bb rest
          (by intro hx; cases hx) hbb hoktl hrest]

end

theorem json_loads_dumps (v : PyVal) (ds : Str) (h : json_dumps v = some ds)
    (hok : jsonOk v = true) : json_loads ds = .ok v := by
  unfold json_loads
  have hskip : jSkipWs ds = ds := by
    have := jSkipWs_dumps v ds [] h hok
    simpa using this
  rw [hskip]
  have hsz := jsonSize_le_dumps v ds h hok
  have hfuel : 2 * ds.length + 4 = (2 * ds.length + 4 - jsonSize v) + jsonSize v := by
    omega
  rw [hfuel]
  have hmain := jParseVal_dumps v (2 * ds.length + 4 - jsonSize v) ds [] h hok rfl
  rw [show ds ++ ([] : Str) = ds from by simp] at hmain
  rw [hmain]
  rfl

mutual

theorem pyEq_refl_json : ∀ (v : PyVal), jsonOk v = true → noNaN v = true → pyEq v v = true
  | .none, _, _ => rfl
  | .bool b, _, _ => by cases b <;> rfl
  | .int n, _, _ => by simp [pyEq]
  | .float (.finite r), _, _ => by simp [pyEq, floatEq]
  | .float .inf, _, _ => rfl
  | .float .neginf, _, _ => rfl
  | .float .nan, _, hn => Bool.noConfusion hn
  | .str s, _, _ => by simp [pyEq]
  | .list xs, hok, hn => pyEqL_refl_json xs hok hn
  | .dict kvs, hok, hn => pyEqD_refl_json kvs hok hn
  | .lazy l, hok, _ => Bool.noConfusion hok
  | .metaReset m, hok, _ => Bool.noConfusion hok
  | .metaDel m, hok, _ => Bool.noConfusion hok
  | .merge m u, hok, _ => Bool.noConfusion hok
  | .empty, hok, _ => Bool.noConfusion hok

theorem pyEqL_refl_json : ∀ (xs : PyList), jsonOkL xs = true → noNaNL xs = true →
    pyEqL xs xs = true
  | .nil, _, _ => rfl
  | .cons v tl, hok, hn => by
    simp only [jsonOkL, Bool.and_eq_true] at hok
    simp only [noNaNL, Bool.and_eq_true] at hn
    simp only [pyEqL, Bool.and_eq_true]
    exact ⟨pyEq_refl_json v hok.1 hn.1, pyEqL_refl_json tl hok.2 hn.2⟩

theorem pyEqD_refl_json : ∀ (kvs : PyDict), jsonOkD kvs = true → noNaND kvs = true →
    pyEqD kvs kvs = true
  | .nil, _, _ => rfl
  | .cons k v tl, hok, hn => by
    simp only [jsonOkD, Bool.and_eq_true] at hok
    simp only [noNaND, Bool.and_eq_true] at hn
    simp only [pyEqD, Bool.and_eq_true]
    exact ⟨⟨by simp, pyEq_refl_json v hok.1 hn.1⟩, pyEqD_refl_json tl hok.2 hn.2⟩

end

theorem roundTrippable_jsonOk (v : PyVal) (h : roundTrippable v = true) :
    jsonOk v = true := by
  cases v with
  | none => rfl
  | bool b => rfl
  | int n => rfl
  | float x => exact h
  | list xs => exact h
  | dict kvs => exact h
  | str s => exact Bool.noConfusion h
  | lazy l => exact Bool.noConfusion h
  | metaReset m => exact Bool.noConfusion h
  | metaDel m => exact Bool.noConfusion h
  | merge m u => exact Bool.noConfusion h
  | empty => exact Bool.noConfusion h

theorem comb_none_at_int (c : Char) (p : Str) (hc : ¬(c = '@')) :
    comb_token_match ("@int ".data ++ c :: p) = Option.none := by
  have hS : (('@' : Char) == c) = false := by
    simp only [beq_eq_false_iff_ne, ne_eq]
    exact fun h => hc h.symm
  simp [comb_token_match, converters_keys, combTokenGo, strStarts, hS]

theorem comb_none_at_float (c : Char) (p : Str) (hc : ¬(c = '@')) :
    comb_token_match ("@float ".data ++ c :: p) = Option.none := by
  have hS : (('@' : Char) == c) = false := by
    simp only [beq_eq_false_iff_ne, ne_eq]
    exact fun h => hc h.symm
  simp [comb_token_match, converters_keys, combTokenGo, strStarts, hS]

theorem intChars_head (n : Int) : ∃ c p, intChars n = c :: p ∧ ¬(c = '@') := by
  unfold intChars
  by_cases hneg : n < 0
  · rw [if_pos hneg]
    exact ⟨'-', _, rfl, by decide⟩
  · rw [if_neg hneg]
    obtain ⟨c, cs, he, hd, _, _⟩ := natChars_head n.toNat
    exact ⟨c, cs, he, digit_ne_of '@' hd (by decide)⟩

theorem C1core_int (f : Nat) (tomlfy : Bool) (n : Int) :
    parse_conf_data (f + 5) (.str ("@int ".data ++ intChars n)) tomlfy true
      = .ok (.int n) := by
  obtain ⟨c, p, hcp, hc⟩ := intChars_head n
  rw [hcp]
  have h1 : parse_conf_data (f + 5) (.str ("@int ".data ++ c :: p)) tomlfy true
      = (match directive_dispatch (f + 3) ("@int ".data ++ c :: p) true with
        | .error e => .error e
        | .ok v => .ok (dynabox_wrap v)) := rfl
  rw [h1]
  have h2 : directive_dispatch (f + 3) ("@int ".data ++ c :: p) true
      = (match comb_token_match ("@int ".data ++ c :: p) with
        | some kf =>
          apply_converters (f + 2) ((splitChar ' ' (kf.1 ++ ' ' :: kf.2)).reverse)
            (.str (pyStrip (replaceAll ("@int ".data ++ c :: p) (kf.1 ++ ' ' :: kf.2)))) true
        | Option.none =>
          apply_converters (f + 2) [(partitionSpace ("@int ".data ++ c :: p)).1]
            (.str (partitionSpace ("@int ".data ++ c :: p)).2) true) := rfl
  rw [h2, comb_none_at_int c p hc]
  simp only []
  rw [show partitionSpace ("@int ".data ++ c :: p) = ("@int".data, c :: p) from rfl]
  simp only []
  have h3 : apply_converters (f + 2) ["@int".data] (.str (c :: p)) true
      = (match PyVal.int <$> pyIntOfStr (c :: p) with
        | .error e => .error e
        | .ok v' => apply_converters (f + 1) [] v' true) := rfl
  rw [h3, ← hcp, pyIntOfStr_intChars]
  rfl

theorem C1core_float (f : Nat) (tomlfy : Bool) (r : Str) (hok : floatReprOk r = true) :
    parse_conf_data (f + 5) (.str ("@float ".data ++ r)) tomlfy true
      = .ok (.float (.finite r)) := by
  obtain ⟨hns, _⟩ := floatReprOk_spec hok
  obtain ⟨c, p, rfl, hshape⟩ := numScan_shape hns
  have hc : ¬(c = '@') := by
    rcases hshape with hd | ⟨hcm, _⟩
    · exact digit_ne_of '@' hd (by decide)
    · subst hcm
      decide
  have h1 : parse_conf_data (f + 5) (.str ("@float ".data ++ c :: p)) tomlfy true
      = (match directive_dispatch (f + 3) ("@float ".data ++ c :: p) true with
        | .error e => .error e
        | .ok v => .ok (dynabox_wrap v)) := rfl
  rw [h1]
  have h2 : directive_dispatch (f + 3) ("@float ".data ++ c :: p) true
      = (match comb_token_match ("@float ".data ++ c :: p) with
        | some kf =>
          apply_converters (f + 2) ((splitChar ' ' (kf.1 ++ ' ' :: kf.2)).reverse)
            (.str (pyStrip (replaceAll ("@float ".data ++ c :: p) (kf.1 ++ ' ' :: kf.2)))) true
        | Option.none =>
          apply_converters (f + 2) [(partitionSpace ("@float ".data ++ c :: p)).1]
            (.str (partitionSpace ("@float ".data ++ c :: p)).2) true) := rfl
  rw [h2, comb_none_at_float c p hc]
  simp only []
  rw [show partitionSpace ("@float ".data ++ c :: p) = ("@float".data, c :: p) from rfl]
  simp only []
  have h3 : apply_converters (f + 2) ["@float".data] (.str (c :: p)) true
      = (match PyVal.float <$> pyFloatOfStr (c :: p) with
        | .error e => .error e
        | .ok v' => apply_converters (f + 1) [] v' true) := rfl
  rw [h3, pyFloatOfStr_wf hok]
  rfl

theorem C1core_json_list (f : Nat) (tomlfy : Bool) (v : PyVal) (tail : Str)
    (h : json_dumps v = some ('[' :: tail)) (hok : jsonOk v = true) :
    parse_conf_data (f + 5) (.str ("@json ".data ++ '[' :: tail)) tomlfy true
      = .ok v := by
  have h1 : parse_conf_data (f + 5) (.str ("@json ".data ++ '[' :: tail)) tomlfy true
      = (match (match json_loads ('[' :: tail) with
          | Except.error e => Except.error e
          | Except.ok v' => apply_converters (f + 1) [] v' true) with
        | .error e => .error e
        | .ok v2 => .ok (dynabox_wrap v2)) := rfl
  rw [h1, json_loads_dumps v ('[' :: tail) h hok]
  rfl

theorem C1core_json_dict (f : Nat) (tomlfy : Bool) (v : PyVal) (tail : Str)
    (h : json_dumps v = some ('\x7b' :: tail)) (hok : jsonOk v = true) :
    parse_conf_data (f + 5) (.str ("@json ".data ++ '\x7b' :: tail)) tomlfy true
      = .ok v := by
  have h1 : parse_conf_data (f + 5) (.str ("@json ".data ++ '\x7b' :: tail)) tomlfy true
      = (match (match json_loads ('\x7b' :: tail) with
          | Except.error e => Except.error e
          | Except.ok v' => apply_converters (f + 1) [] v' true) with
        | .error e => .error e
        | .ok v2 => .ok (dynabox_wrap v2)) := rfl
  rw [h1, json_loads_dumps v ('\x7b' :: tail) h hok]
  rfl

/-- Claim C1 (amended): the encode/parse round trip.  For every boolean,
integer, float, sequence, mapping and null value in which no NaN occurs
(and whose finite floats carry well-formed canonical reprs),
`parse_conf_data (unparse_conf_data v) tomlfy` with auto-cast enabled
returns a value Python-equal to `v`.  NaN must be excluded: the round trip
reproduces the NaN value itself, but `nan != nan` under Python `==`, so the
claimed equation fails at NaN (see `C1_counterexample`). -/
theorem C1_round_trip (f : Nat) (tomlfy : Bool) (v : PyVal)
    (hv : roundTrippable v = true) (hn : noNaN v = true) :
    Except.map (fun w => pyEq w v)
      ((unparse_conf_data v).bind (fun u => parse_conf_data (f + 5) u tomlfy true))
      = .ok true := by
  have hpy : pyEq v v = true := pyEq_refl_json v (roundTrippable_jsonOk v hv) hn
  have hcore : (unparse_conf_data v).bind (fun u => parse_conf_data (f + 5) u tomlfy true)
      = .ok v := by
    cases v with
    | bool b =>
      cases b with
      | true => rfl
      | false => rfl
    | int n =>
      show parse_conf_data (f + 5) (.str ("@int ".data ++ intChars n)) tomlfy true = _
      exact C1core_int f tomlfy n
    | float x =>
      cases x with
      | finite r =>
        show parse_conf_data (f + 5) (.str ("@float ".data ++ r)) tomlfy true = _
        exact C1core_float f tomlfy r (show floatReprOk r = true from hv)
      | inf => rfl
      | neginf => rfl
      | nan => exact Bool.noConfusion hn
    | none => rfl
    | list xs =>
      have hok : jsonOk (.list xs) = true := roundTrippable_jsonOk _ hv
      obtain ⟨ds, hds⟩ := json_dumps_ok (.list xs) hok
      have hshape : ∃ tail, ds = '[' :: tail := by
        simp only [json_dumps] at hds
        cases hb : json_dumpsL xs with
        | none => rw [hb] at hds; cases hds
        | some body =>
          rw [hb] at hds
          injection hds with hds
          exact ⟨_, hds.symm⟩
      obtain ⟨tail, rfl⟩ := hshape
      show (match json_dumps (.list xs) with
        | some js => Except.ok (PyVal.str ("@json ".data ++ js))
        | Option.none =>
          Except.error (PyErr.typeError "not JSON serializable".data)).bind
          (fun u => parse_conf_data (f + 5) u tomlfy true) = _
      rw [hds]
      show parse_conf_data (f + 5) (.str ("@json ".data ++ '[' :: tail)) tomlfy true = _
      exact C1core_json_list f tomlfy (.list xs) tail hds hok
    | dict kvs =>
      have hok : jsonOk (.dict kvs) = true := roundTrippable_jsonOk _ hv
      obtain ⟨ds, hds⟩ := json_dumps_ok (.dict kvs) hok
      have hshape : ∃ tail, ds = '\x7b' :: tail := by
        simp only [json_dumps] at hds
        cases hb : json_dumpsD kvs with
        | none => rw [hb] at hds; cases hds
        | some body =>
          rw [hb] at hds
          injection hds with hds
          exact ⟨_, hds.symm⟩
      obtain ⟨tail, rfl⟩ := hshape
      show (match json_dumps (.dict kvs) with
        | some js => Except.ok (PyVal.str ("@json ".data ++ js))
        | Option.none =>
          Except.error (PyErr.typeError "not JSON serializable".data)).bind
          (fun u => parse_conf_data (f + 5) u tomlfy true) = _
      rw [hds]
      show parse_conf_data (f + 5) (.str ("@json ".data ++ '\x7b' :: tail)) tomlfy true = _
      exact C1core_json_dict f tomlfy (.dict kvs) tail hds hok
    | str s => exact Bool.noConfusion hv
    | lazy l => exact Bool.noConfusion hv
    | metaReset m => exact Bool.noConfusion hv
    | metaDel m => exact Bool.noConfusion hv
    | merge m u => exact Bool.noConfusion hv
    | empty => exact Bool.noConfusion hv
  rw [hcore]
  simp only [Except.map]
  rw [hpy]

/-- Witness for `C1_round_trip`: the sequence `[3, true]` satisfies both
hypotheses and round-trips at fuel `5` with `tomlfy = true`. -/
theorem C1_round_trip_witness :
    (roundTrippable (.list (.cons (.int 3) (.cons (.bool true) .nil))) = true
      ∧ noNaN (.list (.cons (.int 3) (.cons (.bool true) .nil))) = true)
    ∧ Except.map (fun w => pyEq w (.list (.cons (.int 3) (.cons (.bool true) .nil))))
        ((unparse_conf_data (.list (.cons (.int 3) (.cons (.bool true) .nil)))).bind
          (fun u => parse_conf_data 5 u true true))
      = .ok true :=
  ⟨⟨rfl, rfl⟩,
    C1_round_trip 0 true (.list (.cons (.int 3) (.cons (.bool true) .nil))) rfl rfl⟩
